import Mathlib

/-!
# Verification of the portfolio rebalancing engine

Shallow embedding of `src/portfolio/rebalancing.rs` (crate `investments`).

Modelling conventions:

* `Decimal` (from the `types` crate, a 96-bit exact decimal) is modelled as `ℚ`.
  All arithmetic appearing in `rebalancing.rs` (addition, subtraction,
  multiplication by a weight, `min`, `abs`) is exact on decimals, and `ℚ` is
  exact as well.  `Decimal::is_zero` is `(· = 0)`, `Decimal::is_sign_negative`
  is `(· < 0)` and `Decimal::is_sign_positive` is `(0 ≤ ·)` (a zero produced by
  the arithmetic in this file carries the positive sign).
* `AssetAllocation` (defined in `src/portfolio/asset_allocation.rs`, which is
  not part of the source tree given to us; its field list is taken from the
  spec's data model, §3) is a tree node carrying scalar fields plus a
  `Holding` that is either a `Group` (with children) or a `Stock` (leaf).
  We encode the two `Holding` variants as two constructors sharing a record
  of scalar fields.  The `name`/`symbol` fields are only used for log output
  and are omitted.
* The iteration order of Rust's `HashSet<usize>` is not specified (and is
  randomized between process runs).  Every `for` loop over
  `correctable_holdings` in `calculate_target_value` is therefore modelled as
  a fold over an explicit order `ord : List ℕ`; within one call all such loops
  traverse the same (never mutated) set, hence share one `ord`.  Universal
  theorems quantify over every `ord` that is a permutation of the index range;
  executable entry points use `List.range` as one possible order.
* `Vec::sort_by_key` is a stable ascending sort; it is modelled by a stable
  insertion sort `sortPairs`.
-/

namespace Rebalancing

/-- Scalar fields of `AssetAllocation` (spec §3 data model): expected weight,
current/target value, the restriction bounds computed by
`calculate_restrictions`, the configuration flags and the computed status
flags. -/
structure AssetFields where
  expected_weight : ℚ
  current_value : ℚ
  target_value : ℚ
  min_value : ℚ
  max_value : Option ℚ
  restrict_buying : Option Bool
  restrict_selling : Option Bool
  buy_blocked : Bool
  sell_blocked : Bool
deriving Repr

/-- An asset-allocation tree node: `Holding::Stock` (leaf) or `Holding::Group`
(children), with the scalar fields attached. -/
inductive AssetAllocation : Type where
  | stock (f : AssetFields)
  | group (f : AssetFields) (assets : List AssetAllocation)

/-- The scalar fields of a node. -/
def AssetAllocation.fields : AssetAllocation → AssetFields
  | .stock f => f
  | .group f _ => f

/-- Custom induction principle for the nested inductive `AssetAllocation`. -/
theorem AssetAllocation.indMem {motive : AssetAllocation → Prop}
    (hstock : ∀ f, motive (.stock f))
    (hgroup : ∀ f kids, (∀ k ∈ kids, motive k) → motive (.group f kids)) :
    ∀ a, motive a
  | .stock f => hstock f
  | .group f kids => hgroup f kids (fun k hk =>
      have : sizeOf k < sizeOf (AssetAllocation.group f kids) := by
        have h1 := List.sizeOf_lt_of_mem hk
        simp only [AssetAllocation.group.sizeOf_spec]
        omega
      AssetAllocation.indMem hstock hgroup k)
termination_by a => sizeOf a

/-- The portfolio handed to `rebalance_portfolio`: the asset tree, the total
value to distribute and the minimal trade volume (`name` omitted). -/
structure Portfolio where
  assets : List AssetAllocation
  total_value : ℚ
  min_trade_volume : ℚ

/-! ## `calculate_restrictions` (rebalancing.rs lines 30-74)

Bottom-up pass writing `min_value`/`max_value` onto every node and returning
the totals `(total_min_value, total_max_value)` for the processed sibling
list.  The Rust loop accumulates the totals left-to-right; we accumulate
them by structural recursion on the list, which produces the same sums. -/

mutual

/-- Process one asset of the sibling list: lines 36-56 of the source. -/
def restrictOne : AssetAllocation → AssetAllocation × (ℚ × Option ℚ)
  | .stock f =>
    let min_value := if f.restrict_selling.getD false then f.current_value else 0
    let max_value := if f.restrict_buying.getD false then some f.current_value else none
    (.stock { f with min_value := min_value, max_value := max_value },
     (min_value, max_value))
  | .group f assets =>
    let r := calculate_restrictions assets
    (.group { f with min_value := r.2.1, max_value := r.2.2 } r.1, r.2)

/-- The whole pass over a sibling list, returning the updated list together
with `(total_min_value, total_max_value)`; `total_max_value` is `none` as soon
as one child has unbounded `max_value` (the `all_with_max_value` flag). -/
def calculate_restrictions : List AssetAllocation → List AssetAllocation × (ℚ × Option ℚ)
  | [] => ([], (0, some 0))
  | a :: rest =>
    let ra := restrictOne a
    let rr := calculate_restrictions rest
    (ra.1 :: rr.1,
     (ra.2.1 + rr.2.1,
      match ra.2.2, rr.2.2 with
      | some x, some y => some (x + y)
      | _, _ => none))

end

/-! ## Specification-side predicates for the restriction pass -/

/-- Sum of the children's `min_value` fields. -/
def sumMin (assets : List AssetAllocation) : ℚ :=
  (assets.map (fun a => a.fields.min_value)).sum

/-- Sum of the children's `current_value` fields. -/
def sumCurrent (assets : List AssetAllocation) : ℚ :=
  (assets.map (fun a => a.fields.current_value)).sum

/-- Sum of the children's `max_value` fields: `some` of the sum when every
child is bounded, `none` otherwise. -/
def sumMax : List AssetAllocation → Option ℚ
  | [] => some 0
  | a :: rest =>
    match a.fields.max_value, sumMax rest with
    | some x, some y => some (x + y)
    | _, _ => none

/-- The leaf rule of the spec (§4.1): `min_value = current_value` if
`restrict_selling` else `0`; `max_value = current_value` if `restrict_buying`
else unbounded. -/
def leafRestrictionsOk (f : AssetFields) : Prop :=
  f.min_value = (if f.restrict_selling.getD false then f.current_value else 0) ∧
  f.max_value = (if f.restrict_buying.getD false then some f.current_value else none)

/-- Every node of the tree carries the min/max values prescribed by the spec
of `calculate_restrictions`. -/
inductive RestrictionsCorrect : AssetAllocation → Prop where
  | stock : ∀ f, leafRestrictionsOk f → RestrictionsCorrect (.stock f)
  | group : ∀ f kids, f.min_value = sumMin kids → f.max_value = sumMax kids →
      (∀ k ∈ kids, RestrictionsCorrect k) → RestrictionsCorrect (.group f kids)

/-- Field equality except for `min_value`/`max_value`: what the restriction
pass is allowed to change. -/
def eqExceptRestrictions (f g : AssetFields) : Prop :=
  g.expected_weight = f.expected_weight ∧ g.current_value = f.current_value ∧
  g.target_value = f.target_value ∧ g.restrict_buying = f.restrict_buying ∧
  g.restrict_selling = f.restrict_selling ∧ g.buy_blocked = f.buy_blocked ∧
  g.sell_blocked = f.sell_blocked

mutual

/-- The output tree differs from the input tree only in the
`min_value`/`max_value` fields. -/
def SameButRestrictions : AssetAllocation → AssetAllocation → Prop
  | .stock f, .stock g => eqExceptRestrictions f g
  | .group f kids, .group g kids2 =>
      eqExceptRestrictions f g ∧ SameButRestrictionsList kids kids2
  | _, _ => False

/-- Pointwise `SameButRestrictions` on sibling lists. -/
def SameButRestrictionsList : List AssetAllocation → List AssetAllocation → Prop
  | [], [] => True
  | a :: as_, b :: bs => SameButRestrictions a b ∧ SameButRestrictionsList as_ bs
  | _, _ => False

end

theorem calculate_restrictions_cons (a : AssetAllocation) (rest : List AssetAllocation) :
    calculate_restrictions (a :: rest) =
      ((restrictOne a).1 :: (calculate_restrictions rest).1,
       ((restrictOne a).2.1 + (calculate_restrictions rest).2.1,
        match (restrictOne a).2.2, (calculate_restrictions rest).2.2 with
        | some x, some y => some (x + y)
        | _, _ => none)) := by
  simp [calculate_restrictions]

/-- What `restrictOne` guarantees for one subtree. -/
def RestrOneOk (a : AssetAllocation) : Prop :=
  RestrictionsCorrect (restrictOne a).1 ∧ SameButRestrictions a (restrictOne a).1 ∧
  (restrictOne a).2.1 = (restrictOne a).1.fields.min_value ∧
  (restrictOne a).2.2 = (restrictOne a).1.fields.max_value

/-- What `calculate_restrictions` guarantees for one sibling list. -/
def RestrListOk (assets : List AssetAllocation) : Prop :=
  (∀ b ∈ (calculate_restrictions assets).1, RestrictionsCorrect b) ∧
  SameButRestrictionsList assets (calculate_restrictions assets).1 ∧
  (calculate_restrictions assets).2.1 = sumMin (calculate_restrictions assets).1 ∧
  (calculate_restrictions assets).2.2 = sumMax (calculate_restrictions assets).1

theorem restrListOk_of_mem (assets : List AssetAllocation)
    (h : ∀ a ∈ assets, RestrOneOk a) : RestrListOk assets := by
  induction assets with
  | nil =>
    refine ⟨by simp [calculate_restrictions], ?_, ?_, ?_⟩ <;>
      simp [calculate_restrictions, SameButRestrictionsList, sumMin, sumMax]
  | cons a rest ih =>
    obtain ⟨h1, h2, h3, h4⟩ := h a (List.mem_cons_self a rest)
    obtain ⟨g1, g2, g3, g4⟩ := ih (fun k hk => h k (List.mem_cons_of_mem _ hk))
    rw [RestrListOk, calculate_restrictions_cons]
    refine ⟨?_, ⟨h2, g2⟩, ?_, ?_⟩
    · intro b hb
      rcases List.mem_cons.mp hb with rfl | hb
      · exact h1
      · exact g1 b hb
    · rw [h3, g3]
      simp [sumMin]
    · rw [h4, g4]
      show _ = sumMax (_ :: _)
      rw [sumMax]

theorem restrOneOk_all : ∀ a, RestrOneOk a := by
  intro a
  induction a using AssetAllocation.indMem with
  | hstock f =>
    refine ⟨RestrictionsCorrect.stock _ ⟨rfl, rfl⟩, ?_, rfl, rfl⟩
    exact ⟨rfl, rfl, rfl, rfl, rfl, rfl, rfl⟩
  | hgroup f kids ih =>
    obtain ⟨g1, g2, g3, g4⟩ := restrListOk_of_mem kids ih
    refine ⟨RestrictionsCorrect.group _ _ g3 g4 g1, ⟨?_, g2⟩, rfl, rfl⟩
    exact ⟨rfl, rfl, rfl, rfl, rfl, rfl, rfl⟩

/-- C8: `calculate_restrictions` computes, for every leaf,
`min_value = current_value` if `restrict_selling` else `0` and
`max_value = current_value` if `restrict_buying` else unbounded, and for every
group the sum of the children's `min_value` resp. the sum of the children's
`max_value` when all are bounded (else unbounded); it changes nothing else,
and it is a total function (no failure mode). -/
theorem c8_calculate_restrictions_correct (assets : List AssetAllocation) :
    (∀ b ∈ (calculate_restrictions assets).1, RestrictionsCorrect b) ∧
    SameButRestrictionsList assets (calculate_restrictions assets).1 ∧
    (calculate_restrictions assets).2.1 = sumMin (calculate_restrictions assets).1 ∧
    (calculate_restrictions assets).2.2 = sumMax (calculate_restrictions assets).1 :=
  restrListOk_of_mem assets (fun a _ => restrOneOk_all a)

/-! ## `calculate_target_value` (rebalancing.rs lines 76-232)

The function works on one sibling level at a time; at one level it only reads
and writes the scalar fields, so the level computation is modelled on
`List AssetFields`.  The level consists of six passes (spec §4.2); all loops
over the (never shrunk — `uncorrectable_holdings` stays empty, line 89) set
`correctable_holdings` are folds over an explicit iteration order `ord`. -/

/-- Generic fold over an iteration order: visit index `i`, read the asset,
apply `step` and write the result back (out-of-range indices cannot occur for
a valid order and are skipped). -/
def overIdx {σ : Type} (step : ℕ → AssetFields → σ → AssetFields × σ) :
    List ℕ → List AssetFields × σ → List AssetFields × σ
  | [], st => st
  | i :: rest, (fs, s) =>
    match fs.get? i with
    | none => overIdx step rest (fs, s)
    | some f => overIdx step rest (fs.set i (step i f s).1, (step i f s).2)

/-- Pass 1 (lines 82-85): proportional targets
`target_value := target_total_value * expected_weight` (this loop is over the
vector itself, in index order). -/
def proportionalPass (target_total_value : ℚ) (fs : List AssetFields) : List AssetFields :=
  fs.map fun f => { f with target_value := target_total_value * f.expected_weight }

/-- Pass 2 step (lines 98-114): clamp to `max_value`, flag `buy_blocked`,
release the excess into the balance. -/
def maxClampStep (f : AssetFields) (balance : ℚ) : AssetFields × ℚ :=
  match f.max_value with
  | none => (f, balance)
  | some max_value =>
    if f.target_value > max_value then
      ({ f with target_value := max_value, buy_blocked := true },
       balance + (f.target_value - max_value))
    else (f, balance)

/-- Pass 3 step (lines 117-129): clamp to `min_value`, flag `sell_blocked`,
subtract the shortfall from the balance (the added difference is negative). -/
def minClampStep (f : AssetFields) (balance : ℚ) : AssetFields × ℚ :=
  if f.target_value < f.min_value then
    ({ f with target_value := f.min_value, sell_blocked := true },
     balance + (f.target_value - f.min_value))
  else (f, balance)

/-- Pass 4 step (lines 135-149): dust elimination.  A nonzero difference
smaller in magnitude than `min_trade_volume` is snapped back to
`current_value`; the index and eliminated amount are recorded in the
`sells`/`buys` vectors (in iteration order) and the difference folds into the
balance.  Note that the loop runs over the whole `correctable_holdings` set,
which still contains every index — including already blocked ones. -/
def dustStep (min_trade_volume : ℚ) (i : ℕ) (f : AssetFields) :
    ℚ × List (ℕ × ℚ) × List (ℕ × ℚ) → AssetFields × (ℚ × List (ℕ × ℚ) × List (ℕ × ℚ))
  | (balance, sells, buys) =>
    let difference := f.target_value - f.current_value
    if difference ≠ 0 ∧ |difference| < min_trade_volume then
      if difference < 0 then
        ({ f with target_value := f.current_value },
         (balance + difference, sells ++ [(i, -difference)], buys))
      else
        ({ f with target_value := f.current_value },
         (balance + difference, sells, buys ++ [(i, difference)]))
    else (f, (balance, sells, buys))

/-- Stable ascending insertion into a `(index, amount)` list, by amount: the
element is placed before the first entry of equal or greater amount, so that
entries of equal amount keep their original relative order. -/
def insPair (p : ℕ × ℚ) : List (ℕ × ℚ) → List (ℕ × ℚ)
  | [] => [p]
  | q :: rest => if p.2 ≤ q.2 then p :: q :: rest else q :: insPair p rest

/-- Stable ascending sort by amount: the model of the stable
`sort_by_key(|item| item.1)` (each head is inserted, before equal amounts,
into the sorted tail of elements that followed it). -/
def sortPairs : List (ℕ × ℚ) → List (ℕ × ℚ)
  | [] => []
  | p :: rest => insPair p (sortPairs rest)

/-- Pass 5, positive branch (lines 153-171): walk the sorted `buys` vector;
stop as soon as the balance has dropped below `min_trade_volume`; raise a
snapped child's target to `current_value + min_trade_volume` unless that
exceeds its `max_value`, consuming `min_trade_volume` of balance. -/
def applyBuys (min_trade_volume : ℚ) :
    List (ℕ × ℚ) → List AssetFields → ℚ → List AssetFields × ℚ
  | [], fs, balance => (fs, balance)
  | (index, _) :: rest, fs, balance =>
    if balance < min_trade_volume then (fs, balance)
    else
      match fs.get? index with
      | none => applyBuys min_trade_volume rest fs balance
      | some f =>
        let target_value := f.current_value + min_trade_volume
        match f.max_value with
        | some max_value =>
          if target_value > max_value then applyBuys min_trade_volume rest fs balance
          else
            applyBuys min_trade_volume rest
              (fs.set index { f with target_value := target_value })
              (balance - min_trade_volume)
        | none =>
          applyBuys min_trade_volume rest
            (fs.set index { f with target_value := target_value })
            (balance - min_trade_volume)

/-- Pass 5, negative branch (lines 173-194).  The source sorts `sells` and
then iterates `buys` (line 175) — the body below is applied to whatever list
the caller passes, and `redistributionPass` passes `buys`, as the source
does.  Stop once the balance has climbed above `-min_trade_volume`; lower a
child's target to `current_value - min_trade_volume` unless that violates its
`min_value`; a zero-weight child whose lowered target would be `≤ 0` is sent
to target `0` with `current_value - target_value` folded into the balance
(lines 183-190). -/
def applySells (min_trade_volume : ℚ) :
    List (ℕ × ℚ) → List AssetFields → ℚ → List AssetFields × ℚ
  | [], fs, balance => (fs, balance)
  | (index, _) :: rest, fs, balance =>
    if balance > -min_trade_volume then (fs, balance)
    else
      match fs.get? index with
      | none => applySells min_trade_volume rest fs balance
      | some f =>
        let target_value := f.current_value - min_trade_volume
        if target_value < f.min_value then
          if f.expected_weight = 0 ∧ target_value ≤ 0 then
            applySells min_trade_volume rest
              (fs.set index { f with target_value := 0 })
              (balance + (f.current_value - f.target_value))
          else applySells min_trade_volume rest fs balance
        else
          applySells min_trade_volume rest
            (fs.set index { f with target_value := target_value })
            (balance + min_trade_volume)

/-- Pass 5 (lines 151-196): skipped entirely when the balance is zero; the
positive branch walks the stably sorted `buys`; the negative branch sorts
`sells` but then iterates the (unsorted) `buys` vector — faithfully to
line 175 of the source, where the sorted `sells` vector is never read. -/
def redistributionPass (min_trade_volume : ℚ) (fs : List AssetFields) (balance : ℚ)
    (sells buys : List (ℕ × ℚ)) : List AssetFields × ℚ :=
  if balance = 0 then (fs, balance)
  else if 0 ≤ balance then applyBuys min_trade_volume (sortPairs buys) fs balance
  else applySells min_trade_volume buys fs balance

/-- Pass 6 step (lines 198-220): spillover.  A child whose pending difference
has the same sign as the remaining balance absorbs as much of it as its
`max_value` (positive case; everything, if unbounded) or `min_value`
(negative case) headroom permits, without any minimum-trade-volume check. -/
def spilloverStep (f : AssetFields) (balance : ℚ) : AssetFields × ℚ :=
  let difference := f.target_value - f.current_value
  if 0 ≤ difference ∧ 0 ≤ balance then
    match f.max_value with
    | some max_value =>
      let volume := min (max_value - f.target_value) balance
      ({ f with target_value := f.target_value + volume }, balance - volume)
    | none =>
      ({ f with target_value := f.target_value + balance }, 0)
  else if difference < 0 ∧ balance < 0 then
    let volume := min (f.target_value - f.min_value) (-balance)
    ({ f with target_value := f.target_value - volume }, balance + volume)
  else (f, balance)

/-- Passes 1-3 (lines 82-129): proportional targets with balance `0`, then
the max-clamp and min-clamp folds. -/
def clampPasses (ord : List ℕ) (target_total_value : ℚ) (fs : List AssetFields) :
    List AssetFields × ℚ :=
  overIdx (fun _ f b => minClampStep f b) ord
    (overIdx (fun _ f b => maxClampStep f b) ord
      (proportionalPass target_total_value fs, 0))

/-- Pass 4 (lines 132-149): the dust fold, starting from empty
`sells`/`buys` vectors. -/
def dustPass (ord : List ℕ) (min_trade_volume : ℚ) (st : List AssetFields × ℚ) :
    List AssetFields × (ℚ × List (ℕ × ℚ) × List (ℕ × ℚ)) :=
  overIdx (dustStep min_trade_volume) ord (st.1, (st.2, [], []))

/-- One level of `calculate_target_value` (lines 80-222, everything except the
final recursion into groups), for a given iteration order `ord` of
`correctable_holdings`.  Returns the updated scalar fields and the final
balance — which the source only logs (line 222) and then drops. -/
def calcLevel (ord : List ℕ) (target_total_value min_trade_volume : ℚ)
    (fs : List AssetFields) : List AssetFields × ℚ :=
  let st4 := dustPass ord min_trade_volume (clampPasses ord target_total_value fs)
  overIdx (fun _ f b => spilloverStep f b) ord
    (redistributionPass min_trade_volume st4.1 st4.2.1 st4.2.2.1 st4.2.2.2)

mutual

/-- `calculate_target_value` with the canonical iteration order
(`List.range`): run one level, then recurse into every group child (lines
224-231) with its resolved `target_value` as the new budget.  The source
mutates the tree in place and returns nothing — in particular the residual
balance of every level is dropped. -/
def calculate_target_value (target_total_value min_trade_volume : ℚ)
    (assets : List AssetAllocation) : List AssetAllocation :=
  rebuildChildren min_trade_volume
    (calcLevel (List.range assets.length) target_total_value min_trade_volume
      (assets.map AssetAllocation.fields)).1
    assets
termination_by (sizeOf assets, 1)

/-- Zip the level-updated fields back onto the tree shapes, recursing into
group children. -/
def rebuildChildren (min_trade_volume : ℚ) :
    List AssetFields → List AssetAllocation → List AssetAllocation
  | f :: fs, .stock _ :: rest =>
    .stock f :: rebuildChildren min_trade_volume fs rest
  | f :: fs, .group _ kids :: rest =>
    .group f (calculate_target_value f.target_value min_trade_volume kids) ::
      rebuildChildren min_trade_volume fs rest
  | _, _ => []
termination_by _ assets => (sizeOf assets, 0)

end

/-- `rebalance_portfolio` (lines 11-28): restriction pass, then target
calculation.  The restriction pass's returned totals are ignored (line 13,
`FIXME: Use result`), the residual of `calculate_target_value` is dropped
and the `sell_overbought_assets` call is disabled (`if false`, line 22) — so
the function can only return a plain portfolio, never an error value. -/
def rebalance_portfolio (portfolio : Portfolio) : Portfolio :=
  { portfolio with
    assets := calculate_target_value portfolio.total_value portfolio.min_trade_volume
      (calculate_restrictions portfolio.assets).1 }

/-! ## List index helpers -/

theorem get?_set_ne {α : Type} : ∀ (l : List α) (i j : ℕ) (a : α), i ≠ j →
    (l.set i a).get? j = l.get? j
  | [], _, _, _, _ => rfl
  | _ :: _, 0, 0, _, h => absurd rfl h
  | _ :: _, 0, _ + 1, _, _ => rfl
  | _ :: _, _ + 1, 0, _, _ => rfl
  | _ :: xs, i + 1, j + 1, a, h =>
    get?_set_ne xs i j a (fun hh => h (by rw [hh]))

theorem get?_set_self {α : Type} : ∀ (l : List α) (i : ℕ) (a f : α),
    l.get? i = some f → (l.set i a).get? i = some a
  | [], i, _, _, h => by simp at h
  | _ :: _, 0, _, _, _ => rfl
  | _ :: xs, i + 1, a, f, h => get?_set_self xs i a f h

theorem set_get?_eq_self {α : Type} : ∀ (l : List α) (i : ℕ) (f : α),
    l.get? i = some f → l.set i f = l
  | [], _, _, _ => rfl
  | x :: xs, 0, f, h => by
    simp only [List.get?] at h
    rw [Option.some.inj h]
    rfl
  | x :: xs, i + 1, f, h => by
    simp only [List.set, List.cons.injEq, true_and]
    exact set_get?_eq_self xs i f h

theorem mem_of_get?_eq_some {α : Type} : ∀ (l : List α) (i : ℕ) (a : α),
    l.get? i = some a → a ∈ l
  | [], i, _, h => by simp at h
  | x :: xs, 0, a, h => by
    simp only [List.get?] at h
    exact (Option.some.inj h) ▸ List.mem_cons_self x xs
  | x :: xs, i + 1, a, h => List.mem_cons_of_mem x (mem_of_get?_eq_some xs i a h)

theorem get?_of_mem' {α : Type} : ∀ (l : List α) (a : α), a ∈ l →
    ∃ i, l.get? i = some a
  | [], a, h => by simp at h
  | x :: xs, a, h => by
    rcases List.mem_cons.mp h with rfl | h
    · exact ⟨0, rfl⟩
    · obtain ⟨i, hi⟩ := get?_of_mem' xs a h
      exact ⟨i + 1, hi⟩

theorem sum_map_set {α : Type} (h : α → ℚ) :
    ∀ (l : List α) (i : ℕ) (g f : α), l.get? i = some f →
      ((l.set i g).map h).sum = (l.map h).sum - h f + h g
  | [], i, _, _, hf => by simp at hf
  | x :: xs, 0, g, f, hf => by
    simp only [List.get?] at hf
    rw [Option.some.inj hf]
    simp [List.set]
    ring
  | x :: xs, i + 1, g, f, hf => by
    simp only [List.set, List.map_cons, List.sum_cons]
    rw [sum_map_set h xs i g f hf]
    ring

/-! ## Invariant infrastructure for `overIdx` -/

theorem overIdx_length {σ : Type} (step : ℕ → AssetFields → σ → AssetFields × σ) :
    ∀ (ord : List ℕ) (fs : List AssetFields) (s : σ),
      (overIdx step ord (fs, s)).1.length = fs.length
  | [], _, _ => rfl
  | i :: rest, fs, s => by
    rw [overIdx]
    cases hf : fs.get? i with
    | none => exact overIdx_length step rest fs s
    | some f => rw [overIdx_length step rest _ _, List.length_set]

/-- Membership invariant preservation: a per-element invariant `Inv` coupled
with a state invariant `SInv` survives the fold. -/
theorem overIdx_mem {σ : Type} {step : ℕ → AssetFields → σ → AssetFields × σ}
    (Inv : AssetFields → Prop) (SInv : σ → Prop)
    (hstep : ∀ i f s, Inv f → SInv s → Inv (step i f s).1 ∧ SInv (step i f s).2) :
    ∀ (ord : List ℕ) (fs : List AssetFields) (s : σ),
      (∀ f ∈ fs, Inv f) → SInv s →
      (∀ f ∈ (overIdx step ord (fs, s)).1, Inv f) ∧ SInv (overIdx step ord (fs, s)).2
  | [], fs, s, hfs, hs => ⟨hfs, hs⟩
  | i :: rest, fs, s, hfs, hs => by
    rw [overIdx]
    cases hf : fs.get? i with
    | none => exact overIdx_mem Inv SInv hstep rest fs s hfs hs
    | some f =>
      have hInv := hstep i f s (hfs f (mem_of_get?_eq_some fs i f hf)) hs
      refine overIdx_mem Inv SInv hstep rest _ _ ?_ hInv.2
      intro g hg
      rcases List.mem_or_eq_of_mem_set hg with hg | rfl
      · exact hfs g hg
      · exact hInv.1

/-- Indices outside the order are untouched. -/
theorem overIdx_get?_not_mem {σ : Type} (step : ℕ → AssetFields → σ → AssetFields × σ) :
    ∀ (ord : List ℕ) (fs : List AssetFields) (s : σ) (j : ℕ), j ∉ ord →
      (overIdx step ord (fs, s)).1.get? j = fs.get? j
  | [], _, _, _, _ => rfl
  | i :: rest, fs, s, j, hj => by
    have hji : i ≠ j := fun h => hj (h ▸ List.mem_cons_self i rest)
    have hjr : j ∉ rest := fun h => hj (List.mem_cons_of_mem i h)
    rw [overIdx]
    cases hf : fs.get? i with
    | none => exact overIdx_get?_not_mem step rest fs s j hjr
    | some f =>
      rw [overIdx_get?_not_mem step rest _ _ j hjr, get?_set_ne _ _ _ _ hji]

/-- Pointwise characterization: with a duplicate-free order, the entry at a
visited index is `step` applied to the entry the pass started from (at some
intermediate state). -/
theorem overIdx_get?_visited {σ : Type} (step : ℕ → AssetFields → σ → AssetFields × σ) :
    ∀ (ord : List ℕ), ord.Nodup →
      ∀ (fs : List AssetFields) (s : σ) (i : ℕ) (f : AssetFields),
        i ∈ ord → fs.get? i = some f →
        ∃ s2, (overIdx step ord (fs, s)).1.get? i = some (step i f s2).1
  | [], _, _, _, _, _, hi, _ => absurd hi (List.not_mem_nil _)
  | j :: rest, hnd, fs, s, i, f, hi, hf => by
    rw [overIdx]
    rcases List.mem_cons.mp hi with rfl | hi2
    · rw [hf]
      refine ⟨s, ?_⟩
      rw [overIdx_get?_not_mem step rest _ _ i (List.nodup_cons.mp hnd).1]
      exact get?_set_self fs i _ f hf
    · cases hg : fs.get? j with
      | none => exact overIdx_get?_visited step rest (List.nodup_cons.mp hnd).2 fs s i f hi2 hf
      | some g =>
        have hij : j ≠ i := fun h => (List.nodup_cons.mp hnd).1 (h ▸ hi2)
        refine overIdx_get?_visited step rest (List.nodup_cons.mp hnd).2 _ _ i f hi2 ?_
        rw [get?_set_ne _ _ _ _ hij]
        exact hf

/-- Pointwise relational frame: if every step result is `R`-related to its
input, output entries are `R`-related to input entries. -/
theorem overIdx_get?_rel {σ : Type} {step : ℕ → AssetFields → σ → AssetFields × σ}
    (R : AssetFields → AssetFields → Prop)
    (hR : ∀ i f s, R f (step i f s).1) (htrans : ∀ a b c, R a b → R b c → R a c) :
    ∀ (ord : List ℕ) (fs : List AssetFields) (s : σ) (i : ℕ) (f : AssetFields),
      fs.get? i = some f →
      ∃ g, (overIdx step ord (fs, s)).1.get? i = some g ∧ (f = g ∨ R f g)
  | [], fs, s, i, f, hf => ⟨f, hf, Or.inl rfl⟩
  | j :: rest, fs, s, i, f, hf => by
    rw [overIdx]
    cases hg : fs.get? j with
    | none => exact overIdx_get?_rel R hR htrans rest fs s i f hf
    | some g =>
      by_cases hij : j = i
      · subst hij
        have hfg : f = g := by rw [hf] at hg; exact Option.some.inj hg
        subst hfg
        obtain ⟨g2, hg2, hrel⟩ := overIdx_get?_rel R hR htrans rest
          (fs.set j (step j f s).1) (step j f s).2 j (step j f s).1
          (get?_set_self fs j _ f hf)
        refine ⟨g2, hg2, Or.inr ?_⟩
        rcases hrel with rfl | hrel
        · exact hR j f s
        · exact htrans _ _ _ (hR j f s) hrel
      · refine overIdx_get?_rel R hR htrans rest _ _ i f ?_
        rw [get?_set_ne _ _ _ _ hij]
        exact hf

/-- Conservation through a fold: if each step preserves
`target_value + proj state`, the fold preserves the sum of all targets plus
the projected state. -/
theorem overIdx_target_sum {σ : Type} {step : ℕ → AssetFields → σ → AssetFields × σ}
    (proj : σ → ℚ)
    (hstep : ∀ i f s,
      (step i f s).1.target_value + proj (step i f s).2 = f.target_value + proj s) :
    ∀ (ord : List ℕ) (fs : List AssetFields) (s : σ),
      ((overIdx step ord (fs, s)).1.map (fun f => f.target_value)).sum
          + proj (overIdx step ord (fs, s)).2
        = (fs.map (fun f => f.target_value)).sum + proj s
  | [], _, _ => rfl
  | i :: rest, fs, s => by
    rw [overIdx]
    cases hf : fs.get? i with
    | none => exact overIdx_target_sum proj hstep rest fs s
    | some f =>
      rw [overIdx_target_sum proj hstep rest _ _,
        sum_map_set (fun f => f.target_value) fs i _ f hf]
      have := hstep i f s
      linarith

theorem lt_length_of_get?_eq_some {α : Type} : ∀ (l : List α) (i : ℕ) (a : α),
    l.get? i = some a → i < l.length
  | [], _, _, h => by simp at h
  | _ :: _, 0, _, _ => Nat.succ_pos _
  | _ :: xs, i + 1, a, h =>
    Nat.succ_lt_succ (lt_length_of_get?_eq_some xs i a h)

theorem get?_is_some_of_lt {α : Type} : ∀ (l : List α) (i : ℕ), i < l.length →
    ∃ a, l.get? i = some a
  | [], i, h => absurd h (by simp)
  | x :: _, 0, _ => ⟨x, rfl⟩
  | _ :: xs, i + 1, h => get?_is_some_of_lt xs i (Nat.lt_of_succ_lt_succ h)

/-- Every entry of the output of a covered, duplicate-free fold satisfies any
property that every step result satisfies. -/
theorem overIdx_mem_post {σ : Type} {step : ℕ → AssetFields → σ → AssetFields × σ}
    (Post : AssetFields → Prop)
    (hpost : ∀ i f s, Post (step i f s).1)
    (ord : List ℕ) (hnd : ord.Nodup) (fs : List AssetFields) (s : σ)
    (hcov : ∀ i, i < fs.length → i ∈ ord) :
    ∀ g ∈ (overIdx step ord (fs, s)).1, Post g := by
  intro g hg
  obtain ⟨i, hi⟩ := get?_of_mem' _ g hg
  have hlen : i < fs.length := by
    rw [← overIdx_length step ord fs s]
    exact lt_length_of_get?_eq_some _ _ _ hi
  obtain ⟨f, hf⟩ := get?_is_some_of_lt fs i hlen
  obtain ⟨s2, hs2⟩ := overIdx_get?_visited step ord hnd fs s i f (hcov i hlen) hf
  rw [hi] at hs2
  exact (Option.some.inj hs2) ▸ hpost i f s2

/-! ## Invariants of the level passes -/

/-- Well-formedness of one node's scalar fields, as guaranteed by
`calculate_restrictions` on a tree whose leaf current values are nonnegative
and whose group current values are the sums of their children's (spec §3
invariants). -/
def WFf (f : AssetFields) : Prop :=
  0 ≤ f.current_value ∧ f.min_value ≤ f.current_value ∧
  ∀ mx ∈ f.max_value, f.current_value ≤ mx

/-- The range invariant of the spec (§8): `min_value ≤ target_value` and
`target_value ≤ max_value` whenever `max_value` is bounded. -/
def InBounds (f : AssetFields) : Prop :=
  f.min_value ≤ f.target_value ∧ ∀ mx ∈ f.max_value, f.target_value ≤ mx

/-- A zero-weight child's target never exceeds its current value (holds from
the proportional pass on). -/
def W0 (f : AssetFields) : Prop :=
  f.expected_weight = 0 → f.target_value ≤ f.current_value

/-- The level passes may change only `target_value`, `buy_blocked` and
`sell_blocked`; all other fields agree. -/
def frameEq (f g : AssetFields) : Prop :=
  g.expected_weight = f.expected_weight ∧ g.current_value = f.current_value ∧
  g.min_value = f.min_value ∧ g.max_value = f.max_value ∧
  g.restrict_buying = f.restrict_buying ∧ g.restrict_selling = f.restrict_selling

theorem frameEq_refl (f : AssetFields) : frameEq f f :=
  ⟨rfl, rfl, rfl, rfl, rfl, rfl⟩

theorem frameEq_trans {a b c : AssetFields} (h1 : frameEq a b) (h2 : frameEq b c) :
    frameEq a c := by
  obtain ⟨x1, x2, x3, x4, x5, x6⟩ := h1
  obtain ⟨y1, y2, y3, y4, y5, y6⟩ := h2
  exact ⟨y1.trans x1, y2.trans x2, y3.trans x3, y4.trans x4, y5.trans x5, y6.trans x6⟩

theorem WFf_of_frameEq {f g : AssetFields} (hf : WFf f) (h : frameEq f g) : WFf g := by
  obtain ⟨h1, h2, h3, h4, h5, h6⟩ := h
  rw [WFf, h2, h3, h4]
  exact hf

/-! Shape facts for the individual steps. -/

theorem maxClampStep_shape (f : AssetFields) (b : ℚ) :
    maxClampStep f b = (f, b) ∨
    ∃ mx, f.max_value = some mx ∧ mx < f.target_value ∧
      maxClampStep f b =
        ({ f with target_value := mx, buy_blocked := true }, b + (f.target_value - mx)) := by
  unfold maxClampStep
  split
  · exact Or.inl rfl
  · next mx heq =>
      by_cases h : f.target_value > mx
      · rw [if_pos h]
        exact Or.inr ⟨mx, heq, h, rfl⟩
      · rw [if_neg h]
        exact Or.inl rfl

theorem minClampStep_shape (f : AssetFields) (b : ℚ) :
    (minClampStep f b = (f, b) ∧ f.min_value ≤ f.target_value) ∨
    (f.target_value < f.min_value ∧ minClampStep f b =
      ({ f with target_value := f.min_value, sell_blocked := true },
       b + (f.target_value - f.min_value))) := by
  rw [minClampStep]
  by_cases h : f.target_value < f.min_value
  · exact Or.inr ⟨h, by rw [if_pos h]⟩
  · rw [if_neg h]
    exact Or.inl ⟨rfl, le_of_not_lt h⟩

theorem dustStep_shape (m : ℚ) (i : ℕ) (f : AssetFields)
    (s : ℚ × List (ℕ × ℚ) × List (ℕ × ℚ)) :
    (dustStep m i f s = (f, s) ∧
      (f.target_value - f.current_value = 0 ∨ m ≤ |f.target_value - f.current_value|)) ∨
    (f.target_value - f.current_value ≠ 0 ∧ |f.target_value - f.current_value| < m ∧
      (dustStep m i f s).1 = { f with target_value := f.current_value } ∧
      (dustStep m i f s).2.1 = s.1 + (f.target_value - f.current_value) ∧
      ((f.target_value - f.current_value < 0 ∧
         (dustStep m i f s).2.2.1 = s.2.1 ++ [(i, -(f.target_value - f.current_value))] ∧
         (dustStep m i f s).2.2.2 = s.2.2) ∨
       (0 < f.target_value - f.current_value ∧
         (dustStep m i f s).2.2.1 = s.2.1 ∧
         (dustStep m i f s).2.2.2 = s.2.2 ++ [(i, f.target_value - f.current_value)]))) := by
  obtain ⟨bal, sells, buys⟩ := s
  rw [dustStep]
  by_cases h : f.target_value - f.current_value ≠ 0 ∧ |f.target_value - f.current_value| < m
  · rw [if_pos h]
    by_cases hneg : f.target_value - f.current_value < 0
    · rw [if_pos hneg]
      exact Or.inr ⟨h.1, h.2, rfl, rfl, Or.inl ⟨hneg, rfl, rfl⟩⟩
    · rw [if_neg hneg]
      exact Or.inr ⟨h.1, h.2, rfl, rfl, Or.inr
        ⟨lt_of_le_of_ne (le_of_not_lt hneg) (Ne.symm h.1), rfl, rfl⟩⟩
  · rw [if_neg h]
    refine Or.inl ⟨rfl, ?_⟩
    by_cases hz : f.target_value - f.current_value = 0
    · exact Or.inl hz
    · exact Or.inr (le_of_not_lt (fun hlt => h ⟨hz, hlt⟩))

theorem spilloverStep_shape (f : AssetFields) (b : ℚ) :
    (0 ≤ f.target_value - f.current_value ∧ 0 ≤ b ∧
      ((∃ mx, f.max_value = some mx ∧
         spilloverStep f b =
           ({ f with target_value := f.target_value + min (mx - f.target_value) b },
            b - min (mx - f.target_value) b)) ∨
       (f.max_value = none ∧
         spilloverStep f b = ({ f with target_value := f.target_value + b }, 0)))) ∨
    (f.target_value - f.current_value < 0 ∧ b < 0 ∧
      spilloverStep f b =
        ({ f with target_value :=
            f.target_value - min (f.target_value - f.min_value) (-b) },
         b + min (f.target_value - f.min_value) (-b))) ∨
    spilloverStep f b = (f, b) := by
  rw [spilloverStep]
  by_cases h1 : 0 ≤ f.target_value - f.current_value ∧ 0 ≤ b
  · rw [if_pos h1]
    cases hmx : f.max_value with
    | none => exact Or.inl ⟨h1.1, h1.2, Or.inr ⟨rfl, rfl⟩⟩
    | some mx => exact Or.inl ⟨h1.1, h1.2, Or.inl ⟨mx, rfl, rfl⟩⟩
  · rw [if_neg h1]
    by_cases h2 : f.target_value - f.current_value < 0 ∧ b < 0
    · rw [if_pos h2]
      exact Or.inr (Or.inl ⟨h2.1, h2.2, rfl⟩)
    · rw [if_neg h2]
      exact Or.inr (Or.inr rfl)

/-! Invariant preservation and establishment for the clamp passes. -/

theorem maxClampStep_frame (f : AssetFields) (b : ℚ) : frameEq f (maxClampStep f b).1 := by
  rcases maxClampStep_shape f b with heq | ⟨mx, _, _, heq⟩ <;> rw [heq] <;>
    exact ⟨rfl, rfl, rfl, rfl, rfl, rfl⟩

theorem minClampStep_frame (f : AssetFields) (b : ℚ) : frameEq f (minClampStep f b).1 := by
  rcases minClampStep_shape f b with ⟨heq, _⟩ | ⟨_, heq⟩ <;> rw [heq] <;>
    exact ⟨rfl, rfl, rfl, rfl, rfl, rfl⟩

theorem dustStep_frame (m : ℚ) (i : ℕ) (f : AssetFields)
    (s : ℚ × List (ℕ × ℚ) × List (ℕ × ℚ)) : frameEq f (dustStep m i f s).1 := by
  rcases dustStep_shape m i f s with ⟨heq, _⟩ | ⟨_, _, heq, _⟩
  · rw [heq]
    exact frameEq_refl f
  · rw [heq]
    exact ⟨rfl, rfl, rfl, rfl, rfl, rfl⟩

theorem spilloverStep_frame (f : AssetFields) (b : ℚ) : frameEq f (spilloverStep f b).1 := by
  rcases spilloverStep_shape f b with ⟨_, _, ⟨mx, _, heq⟩ | ⟨_, heq⟩⟩ | ⟨_, _, heq⟩ | heq <;>
    rw [heq]
  · exact ⟨rfl, rfl, rfl, rfl, rfl, rfl⟩
  · exact ⟨rfl, rfl, rfl, rfl, rfl, rfl⟩
  · exact ⟨rfl, rfl, rfl, rfl, rfl, rfl⟩
  · exact frameEq_refl f

theorem maxClampStep_inv (f : AssetFields) (b : ℚ) (h : WFf f ∧ W0 f) :
    WFf (maxClampStep f b).1 ∧ W0 (maxClampStep f b).1 := by
  rcases maxClampStep_shape f b with heq | ⟨mx, hmx, hlt, heq⟩
  · rw [heq]
    exact h
  · rw [heq]
    refine ⟨WFf_of_frameEq h.1 ⟨rfl, rfl, rfl, rfl, rfl, rfl⟩, ?_⟩
    intro hw
    show mx ≤ f.current_value
    exact le_trans (le_of_lt hlt) (h.2 hw)

theorem maxClampStep_ub (f : AssetFields) (b : ℚ) :
    ∀ mx ∈ (maxClampStep f b).1.max_value, (maxClampStep f b).1.target_value ≤ mx := by
  unfold maxClampStep
  split
  · next heq =>
      intro mx hmx
      simp only [Option.mem_def] at hmx
      rw [heq] at hmx
      simp at hmx
  · next m0 heq =>
      by_cases h : f.target_value > m0
      · rw [if_pos h]
        intro mx hmx
        simp only [Option.mem_def] at hmx
        rw [show ({ f with target_value := m0, buy_blocked := true } : AssetFields).max_value
            = f.max_value from rfl, heq, Option.some.injEq] at hmx
        rw [← hmx]
      · rw [if_neg h]
        intro mx hmx
        simp only [Option.mem_def] at hmx
        rw [heq, Option.some.injEq] at hmx
        rw [← hmx]
        exact le_of_not_lt h

theorem minClampStep_inv (f : AssetFields) (b : ℚ)
    (h : WFf f ∧ W0 f ∧ (∀ mx ∈ f.max_value, f.target_value ≤ mx)) :
    WFf (minClampStep f b).1 ∧ W0 (minClampStep f b).1 ∧
    (∀ mx ∈ (minClampStep f b).1.max_value, (minClampStep f b).1.target_value ≤ mx) := by
  rcases minClampStep_shape f b with ⟨heq, _⟩ | ⟨hlt, heq⟩
  · rw [heq]
    exact h
  · rw [heq]
    refine ⟨WFf_of_frameEq h.1 ⟨rfl, rfl, rfl, rfl, rfl, rfl⟩, ?_, ?_⟩
    · intro _
      exact h.1.2.1
    · intro m1 hm1
      show f.min_value ≤ m1
      exact le_trans h.1.2.1 (h.1.2.2 m1 hm1)

theorem minClampStep_lb (f : AssetFields) (b : ℚ) :
    (minClampStep f b).1.min_value ≤ (minClampStep f b).1.target_value := by
  rcases minClampStep_shape f b with ⟨heq, hle⟩ | ⟨hlt, heq⟩
  · rw [heq]
    exact hle
  · rw [heq]

theorem dustStep_inv (m : ℚ) (i : ℕ) (f : AssetFields)
    (s : ℚ × List (ℕ × ℚ) × List (ℕ × ℚ)) (h : WFf f ∧ W0 f ∧ InBounds f) :
    WFf (dustStep m i f s).1 ∧ W0 (dustStep m i f s).1 ∧ InBounds (dustStep m i f s).1 := by
  rcases dustStep_shape m i f s with ⟨heq, _⟩ | ⟨_, _, heq, _⟩
  · rw [heq]
    exact h
  · rw [heq]
    exact ⟨WFf_of_frameEq h.1 ⟨rfl, rfl, rfl, rfl, rfl, rfl⟩, fun _ => le_rfl,
      h.1.2.1, fun m1 hm1 => h.1.2.2 m1 hm1⟩

theorem spilloverStep_inv (f : AssetFields) (b : ℚ) (h : WFf f ∧ InBounds f) :
    WFf (spilloverStep f b).1 ∧ InBounds (spilloverStep f b).1 := by
  rcases spilloverStep_shape f b with ⟨hd, hb, ⟨mx, hmx, heq⟩ | ⟨hmx, heq⟩⟩ | ⟨hd, hb, heq⟩ | heq
  · rw [heq]
    refine ⟨WFf_of_frameEq h.1 ⟨rfl, rfl, rfl, rfl, rfl, rfl⟩, ?_, ?_⟩
    · have hvol : 0 ≤ min (mx - f.target_value) b :=
        le_min (by linarith [h.2.2 mx hmx]) hb
      have := h.2.1
      show f.min_value ≤ f.target_value + min (mx - f.target_value) b
      linarith
    · intro m1 hm1
      rw [show ({ f with target_value := f.target_value + min (mx - f.target_value) b }
          : AssetFields).max_value = f.max_value from rfl, hmx] at hm1
      cases hm1
      show f.target_value + min (mx - f.target_value) b ≤ mx
      have := min_le_left (mx - f.target_value) b
      linarith
  · rw [heq]
    refine ⟨WFf_of_frameEq h.1 ⟨rfl, rfl, rfl, rfl, rfl, rfl⟩, ?_, ?_⟩
    · have := h.2.1
      show f.min_value ≤ f.target_value + b
      linarith
    · intro m1 hm1
      rw [show ({ f with target_value := f.target_value + b } : AssetFields).max_value
          = f.max_value from rfl, hmx] at hm1
      simp at hm1
  · rw [heq]
    refine ⟨WFf_of_frameEq h.1 ⟨rfl, rfl, rfl, rfl, rfl, rfl⟩, ?_, ?_⟩
    · have hvol : min (f.target_value - f.min_value) (-b) ≤ f.target_value - f.min_value :=
        min_le_left _ _
      show f.min_value ≤ f.target_value - min (f.target_value - f.min_value) (-b)
      linarith
    · intro m1 hm1
      have hvol : 0 ≤ min (f.target_value - f.min_value) (-b) :=
        le_min (by linarith [h.2.1]) (by linarith)
      have := h.2.2 m1 hm1
      show f.target_value - min (f.target_value - f.min_value) (-b) ≤ m1
      linarith
  · rw [heq]
    exact h

/-! Properties of the stable sort. -/

theorem insPair_perm (p : ℕ × ℚ) : ∀ l : List (ℕ × ℚ), (insPair p l).Perm (p :: l)
  | [] => List.Perm.refl _
  | q :: rest => by
    rw [insPair]
    by_cases h : p.2 ≤ q.2
    · rw [if_pos h]
    · rw [if_neg h]
      exact (List.Perm.cons q (insPair_perm p rest)).trans (List.Perm.swap p q rest)

theorem sortPairs_perm : ∀ l : List (ℕ × ℚ), (sortPairs l).Perm l
  | [] => List.Perm.refl _
  | p :: rest => (insPair_perm p (sortPairs rest)).trans (List.Perm.cons p (sortPairs_perm rest))

/-! Properties of the redistribution branches (pass 5). -/

theorem applyBuys_length (m : ℚ) : ∀ (pairs : List (ℕ × ℚ)) (fs : List AssetFields) (bal : ℚ),
    (applyBuys m pairs fs bal).1.length = fs.length
  | [], _, _ => rfl
  | (i, x) :: rest, fs, bal => by
    rw [applyBuys]
    by_cases hb : bal < m
    · rw [if_pos hb]
    · rw [if_neg hb]
      cases hf : fs.get? i with
      | none => exact applyBuys_length m rest fs bal
      | some f =>
        simp only []
        cases hmx : f.max_value with
        | some mxv =>
          simp only []
          by_cases hgt : f.current_value + m > mxv
          · rw [if_pos hgt]
            exact applyBuys_length m rest fs bal
          · rw [if_neg hgt, applyBuys_length m rest _ _, List.length_set]
        | none =>
          simp only []
          rw [applyBuys_length m rest _ _, List.length_set]

theorem applySells_length (m : ℚ) : ∀ (pairs : List (ℕ × ℚ)) (fs : List AssetFields) (bal : ℚ),
    (applySells m pairs fs bal).1.length = fs.length
  | [], _, _ => rfl
  | (i, x) :: rest, fs, bal => by
    rw [applySells]
    by_cases hb : bal > -m
    · rw [if_pos hb]
    · rw [if_neg hb]
      cases hf : fs.get? i with
      | none => exact applySells_length m rest fs bal
      | some f =>
        simp only []
        by_cases hlt : f.current_value - m < f.min_value
        · rw [if_pos hlt]
          by_cases hw : f.expected_weight = 0 ∧ f.current_value - m ≤ 0
          · rw [if_pos hw, applySells_length m rest _ _, List.length_set]
          · rw [if_neg hw]
            exact applySells_length m rest fs bal
        · rw [if_neg hlt, applySells_length m rest _ _, List.length_set]

theorem applyBuys_mem (m : ℚ) (hm : 0 ≤ m) :
    ∀ (pairs : List (ℕ × ℚ)) (fs : List AssetFields) (bal : ℚ),
    (∀ f ∈ fs, WFf f ∧ InBounds f) →
    ∀ g ∈ (applyBuys m pairs fs bal).1, WFf g ∧ InBounds g
  | [], _, _, h => h
  | (i, x) :: rest, fs, bal, h => by
    rw [applyBuys]
    by_cases hb : bal < m
    · rw [if_pos hb]
      exact h
    · rw [if_neg hb]
      cases hf : fs.get? i with
      | none => exact applyBuys_mem m hm rest fs bal h
      | some f =>
        simp only []
        have hfm := h f (mem_of_get?_eq_some fs i f hf)
        have hset : ∀ (g0 : AssetFields), WFf g0 ∧ InBounds g0 →
            ∀ g ∈ fs.set i g0, WFf g ∧ InBounds g := by
          intro g0 hg0 g hg
          rcases List.mem_or_eq_of_mem_set hg with hg | rfl
          · exact h g hg
          · exact hg0
        cases hmx : f.max_value with
        | some mxv =>
          simp only []
          by_cases hgt : f.current_value + m > mxv
          · rw [if_pos hgt]
            exact applyBuys_mem m hm rest fs bal h
          · rw [if_neg hgt]
            refine applyBuys_mem m hm rest _ _ (hset _ ⟨?_, ?_, ?_⟩)
            · exact WFf_of_frameEq hfm.1 ⟨rfl, rfl, rfl, hmx.symm, rfl, rfl⟩
            · show f.min_value ≤ f.current_value + m
              have := hfm.1.2.1
              linarith
            · intro m1 hm1
              have hm1' : (some mxv : Option ℚ) = some m1 := hm1
              cases Option.some.inj hm1'
              show f.current_value + m ≤ mxv
              exact le_of_not_lt hgt
        | none =>
          simp only []
          refine applyBuys_mem m hm rest _ _ (hset _ ⟨?_, ?_, ?_⟩)
          · exact WFf_of_frameEq hfm.1 ⟨rfl, rfl, rfl, hmx.symm, rfl, rfl⟩
          · show f.min_value ≤ f.current_value + m
            have := hfm.1.2.1
            linarith
          · intro m1 hm1
            have hm1' : (none : Option ℚ) = some m1 := hm1
            simp at hm1'

theorem applySells_mem (m : ℚ) (hm : 0 ≤ m) :
    ∀ (pairs : List (ℕ × ℚ)) (fs : List AssetFields) (bal : ℚ),
    (∀ f ∈ fs, WFf f ∧ InBounds f) →
    (∀ p ∈ pairs, ∀ g, fs.get? p.1 = some g → g.expected_weight ≠ 0) →
    ∀ g ∈ (applySells m pairs fs bal).1, WFf g ∧ InBounds g
  | [], _, _, h, _ => h
  | (i, x) :: rest, fs, bal, h, hw => by
    rw [applySells]
    by_cases hb : bal > -m
    · rw [if_pos hb]
      exact h
    · rw [if_neg hb]
      cases hf : fs.get? i with
      | none =>
        exact applySells_mem m hm rest fs bal h
          (fun p hp => hw p (List.mem_cons_of_mem _ hp))
      | some f =>
        simp only []
        have hfm := h f (mem_of_get?_eq_some fs i f hf)
        by_cases hlt : f.current_value - m < f.min_value
        · rw [if_pos hlt]
          have hwz : ¬(f.expected_weight = 0 ∧ f.current_value - m ≤ 0) := by
            intro hc
            exact hw (i, x) (List.mem_cons_self _ _) f hf hc.1
          rw [if_neg hwz]
          exact applySells_mem m hm rest fs bal h
            (fun p hp => hw p (List.mem_cons_of_mem _ hp))
        · rw [if_neg hlt]
          refine applySells_mem m hm rest _ _ ?_ ?_
          · intro g hg
            rcases List.mem_or_eq_of_mem_set hg with hg | rfl
            · exact h g hg
            · refine ⟨WFf_of_frameEq hfm.1 ⟨rfl, rfl, rfl, rfl, rfl, rfl⟩,
                le_of_not_lt hlt, ?_⟩
              intro m1 hm1
              rw [show ({ f with target_value := f.current_value - m }
                  : AssetFields).max_value = f.max_value from rfl] at hm1
              have := hfm.1.2.2 m1 hm1
              show f.current_value - m ≤ m1
              linarith
          · intro p hp g hg
            by_cases hpi : p.1 = i
            · rw [hpi, get?_set_self fs i _ f hf] at hg
              cases Option.some.inj hg
              exact hw (i, x) (List.mem_cons_self _ _) f hf
            · rw [get?_set_ne fs i p.1 _ (fun hh => hpi hh.symm)] at hg
              exact hw p (List.mem_cons_of_mem _ hp) g hg

theorem applyBuys_rel (m : ℚ) :
    ∀ (pairs : List (ℕ × ℚ)) (fs : List AssetFields) (bal : ℚ) (j : ℕ) (f : AssetFields),
    fs.get? j = some f →
    ∃ g, (applyBuys m pairs fs bal).1.get? j = some g ∧ frameEq f g
  | [], _, _, _, f, hf => ⟨f, hf, frameEq_refl f⟩
  | (i, x) :: rest, fs, bal, j, f, hf => by
    rw [applyBuys]
    by_cases hb : bal < m
    · rw [if_pos hb]
      exact ⟨f, hf, frameEq_refl f⟩
    · rw [if_neg hb]
      cases hg : fs.get? i with
      | none => exact applyBuys_rel m rest fs bal j f hf
      | some f0 =>
        simp only []
        cases hmx : f0.max_value with
        | some mxv =>
          simp only []
          by_cases hgt : f0.current_value + m > mxv
          · rw [if_pos hgt]
            exact applyBuys_rel m rest fs bal j f hf
          · rw [if_neg hgt]
            by_cases hij : i = j
            · subst hij
              have : f0 = f := Option.some.inj (hg ▸ hf)
              subst this
              have hstep : frameEq f0
                  ({ expected_weight := f0.expected_weight, current_value := f0.current_value,
                     target_value := f0.current_value + m, min_value := f0.min_value,
                     max_value := some mxv, restrict_buying := f0.restrict_buying,
                     restrict_selling := f0.restrict_selling, buy_blocked := f0.buy_blocked,
                     sell_blocked := f0.sell_blocked } : AssetFields) :=
                ⟨rfl, rfl, rfl, hmx.symm, rfl, rfl⟩
              obtain ⟨g2, hg2, hrel⟩ := applyBuys_rel m rest _ _ i _
                (get?_set_self fs i _ f0 hg)
              exact ⟨g2, hg2, frameEq_trans hstep hrel⟩
            · exact applyBuys_rel m rest _ _ j f
                (by rw [get?_set_ne fs i j _ hij]; exact hf)
        | none =>
          simp only []
          by_cases hij : i = j
          · subst hij
            have : f0 = f := Option.some.inj (hg ▸ hf)
            subst this
            have hstep : frameEq f0
                ({ expected_weight := f0.expected_weight, current_value := f0.current_value,
                   target_value := f0.current_value + m, min_value := f0.min_value,
                   max_value := none, restrict_buying := f0.restrict_buying,
                   restrict_selling := f0.restrict_selling, buy_blocked := f0.buy_blocked,
                   sell_blocked := f0.sell_blocked } : AssetFields) :=
              ⟨rfl, rfl, rfl, hmx.symm, rfl, rfl⟩
            obtain ⟨g2, hg2, hrel⟩ := applyBuys_rel m rest _ _ i _
              (get?_set_self fs i _ f0 hg)
            exact ⟨g2, hg2, frameEq_trans hstep hrel⟩
          · exact applyBuys_rel m rest _ _ j f
              (by rw [get?_set_ne fs i j _ hij]; exact hf)

theorem applySells_rel (m : ℚ) :
    ∀ (pairs : List (ℕ × ℚ)) (fs : List AssetFields) (bal : ℚ) (j : ℕ) (f : AssetFields),
    fs.get? j = some f →
    ∃ g, (applySells m pairs fs bal).1.get? j = some g ∧ frameEq f g
  | [], _, _, _, f, hf => ⟨f, hf, frameEq_refl f⟩
  | (i, x) :: rest, fs, bal, j, f, hf => by
    rw [applySells]
    by_cases hb : bal > -m
    · rw [if_pos hb]
      exact ⟨f, hf, frameEq_refl f⟩
    · rw [if_neg hb]
      cases hg : fs.get? i with
      | none => exact applySells_rel m rest fs bal j f hf
      | some f0 =>
        simp only []
        by_cases hlt : f0.current_value - m < f0.min_value
        · rw [if_pos hlt]
          by_cases hwz : f0.expected_weight = 0 ∧ f0.current_value - m ≤ 0
          · rw [if_pos hwz]
            by_cases hij : i = j
            · subst hij
              have : f0 = f := Option.some.inj (hg ▸ hf)
              subst this
              obtain ⟨g2, hg2, hrel⟩ := applySells_rel m rest _ _ i _
                (get?_set_self fs i _ f0 hg)
              exact ⟨g2, hg2, frameEq_trans ⟨rfl, rfl, rfl, rfl, rfl, rfl⟩ hrel⟩
            · exact applySells_rel m rest _ _ j f
                (by rw [get?_set_ne fs i j _ hij]; exact hf)
          · rw [if_neg hwz]
            exact applySells_rel m rest fs bal j f hf
        · rw [if_neg hlt]
          by_cases hij : i = j
          · subst hij
            have : f0 = f := Option.some.inj (hg ▸ hf)
            subst this
            obtain ⟨g2, hg2, hrel⟩ := applySells_rel m rest _ _ i _
              (get?_set_self fs i _ f0 hg)
            exact ⟨g2, hg2, frameEq_trans ⟨rfl, rfl, rfl, rfl, rfl, rfl⟩ hrel⟩
          · exact applySells_rel m rest _ _ j f
              (by rw [get?_set_ne fs i j _ hij]; exact hf)

/-- Snapped items: what the dust pass records about its `sells`/`buys`
vectors — positive recorded amount, and the child at the recorded index has
nonzero weight and target pinned to current value. -/
def DustItems (fs : List AssetFields) (l : List (ℕ × ℚ)) : Prop :=
  ∀ p ∈ l, 0 < p.2 ∧ ∀ g, fs.get? p.1 = some g →
    g.expected_weight ≠ 0 ∧ g.target_value = g.current_value

theorem applyBuys_sum (m : ℚ) :
    ∀ (pairs : List (ℕ × ℚ)) (fs : List AssetFields) (bal : ℚ),
    (pairs.map Prod.fst).Nodup →
    (∀ p ∈ pairs, ∀ g, fs.get? p.1 = some g → g.target_value = g.current_value) →
    ((applyBuys m pairs fs bal).1.map (fun f => f.target_value)).sum
        + (applyBuys m pairs fs bal).2
      = (fs.map (fun f => f.target_value)).sum + bal
  | [], _, _, _, _ => rfl
  | (i, x) :: rest, fs, bal, hnd, hsn => by
    have hnd2 : (rest.map Prod.fst).Nodup := (List.nodup_cons.mp hnd).2
    have hi : i ∉ rest.map Prod.fst := (List.nodup_cons.mp hnd).1
    rw [applyBuys]
    by_cases hb : bal < m
    · rw [if_pos hb]
    · rw [if_neg hb]
      cases hg : fs.get? i with
      | none =>
        exact applyBuys_sum m rest fs bal hnd2
          (fun p hp => hsn p (List.mem_cons_of_mem _ hp))
      | some f0 =>
        simp only []
        have hsn0 : f0.target_value = f0.current_value :=
          hsn (i, x) (List.mem_cons_self _ _) f0 hg
        have hrest : ∀ g0 : AssetFields, ∀ p ∈ rest, ∀ g,
            (fs.set i g0).get? p.1 = some g → g.target_value = g.current_value := by
          intro g0 p hp g hgp
          have hpi : p.1 ≠ i := by
            intro hh
            exact hi (hh ▸ List.mem_map_of_mem Prod.fst hp)
          rw [get?_set_ne fs i p.1 _ (fun hh => hpi hh.symm)] at hgp
          exact hsn p (List.mem_cons_of_mem _ hp) g hgp
        cases hmx : f0.max_value with
        | some mxv =>
          simp only []
          by_cases hgt : f0.current_value + m > mxv
          · rw [if_pos hgt]
            exact applyBuys_sum m rest fs bal hnd2
              (fun p hp => hsn p (List.mem_cons_of_mem _ hp))
          · rw [if_neg hgt]
            rw [applyBuys_sum m rest _ _ hnd2 (hrest _),
              sum_map_set (fun f => f.target_value) fs i _ f0 hg]
            show (fs.map (fun f => f.target_value)).sum - f0.target_value
                + (f0.current_value + m) + (bal - m)
              = (fs.map (fun f => f.target_value)).sum + bal
            rw [hsn0]
            ring
        | none =>
          simp only []
          rw [applyBuys_sum m rest _ _ hnd2 (hrest _),
            sum_map_set (fun f => f.target_value) fs i _ f0 hg]
          show (fs.map (fun f => f.target_value)).sum - f0.target_value
              + (f0.current_value + m) + (bal - m)
            = (fs.map (fun f => f.target_value)).sum + bal
          rw [hsn0]
          ring

theorem applySells_sum (m : ℚ) :
    ∀ (pairs : List (ℕ × ℚ)) (fs : List AssetFields) (bal : ℚ),
    (pairs.map Prod.fst).Nodup →
    (∀ p ∈ pairs, ∀ g, fs.get? p.1 = some g →
      g.expected_weight ≠ 0 ∧ g.target_value = g.current_value) →
    ((applySells m pairs fs bal).1.map (fun f => f.target_value)).sum
        + (applySells m pairs fs bal).2
      = (fs.map (fun f => f.target_value)).sum + bal
  | [], _, _, _, _ => rfl
  | (i, x) :: rest, fs, bal, hnd, hsn => by
    have hnd2 : (rest.map Prod.fst).Nodup := (List.nodup_cons.mp hnd).2
    have hi : i ∉ rest.map Prod.fst := (List.nodup_cons.mp hnd).1
    rw [applySells]
    by_cases hb : bal > -m
    · rw [if_pos hb]
    · rw [if_neg hb]
      cases hg : fs.get? i with
      | none =>
        exact applySells_sum m rest fs bal hnd2
          (fun p hp => hsn p (List.mem_cons_of_mem _ hp))
      | some f0 =>
        simp only []
        have hsn0 := hsn (i, x) (List.mem_cons_self _ _) f0 hg
        have hrest : ∀ g0 : AssetFields, ∀ p ∈ rest, ∀ g,
            (fs.set i g0).get? p.1 = some g →
            g.expected_weight ≠ 0 ∧ g.target_value = g.current_value := by
          intro g0 p hp g hgp
          have hpi : p.1 ≠ i := by
            intro hh
            exact hi (hh ▸ List.mem_map_of_mem Prod.fst hp)
          rw [get?_set_ne fs i p.1 _ (fun hh => hpi hh.symm)] at hgp
          exact hsn p (List.mem_cons_of_mem _ hp) g hgp
        by_cases hlt : f0.current_value - m < f0.min_value
        · rw [if_pos hlt]
          have hwz : ¬(f0.expected_weight = 0 ∧ f0.current_value - m ≤ 0) := by
            intro hc
            exact hsn0.1 hc.1
          rw [if_neg hwz]
          exact applySells_sum m rest fs bal hnd2
            (fun p hp => hsn p (List.mem_cons_of_mem _ hp))
        · rw [if_neg hlt]
          rw [applySells_sum m rest _ _ hnd2 (hrest _),
            sum_map_set (fun f => f.target_value) fs i _ f0 hg]
          show (fs.map (fun f => f.target_value)).sum - f0.target_value
              + (f0.current_value - m) + (bal + m)
            = (fs.map (fun f => f.target_value)).sum + bal
          rw [hsn0.2]
          ring

theorem minClampStep_inv0 (f : AssetFields) (b : ℚ) (h : WFf f ∧ W0 f) :
    WFf (minClampStep f b).1 ∧ W0 (minClampStep f b).1 := by
  rcases minClampStep_shape f b with ⟨heq, _⟩ | ⟨hlt, heq⟩
  · rw [heq]
    exact h
  · rw [heq]
    exact ⟨WFf_of_frameEq h.1 ⟨rfl, rfl, rfl, rfl, rfl, rfl⟩, fun _ => h.1.2.1⟩

theorem minClampStep_inv_ub (f : AssetFields) (b : ℚ)
    (h : WFf f ∧ (∀ mx ∈ f.max_value, f.target_value ≤ mx)) :
    WFf (minClampStep f b).1 ∧
    (∀ mx ∈ (minClampStep f b).1.max_value, (minClampStep f b).1.target_value ≤ mx) := by
  rcases minClampStep_shape f b with ⟨heq, _⟩ | ⟨hlt, heq⟩
  · rw [heq]
    exact h
  · rw [heq]
    refine ⟨WFf_of_frameEq h.1 ⟨rfl, rfl, rfl, rfl, rfl, rfl⟩, ?_⟩
    intro m1 hm1
    show f.min_value ≤ m1
    exact le_trans h.1.2.1 (h.1.2.2 m1 hm1)

/-! The dust pass records only positive, nonzero-weight, snapped items in its
vectors. -/

theorem dust_items (m : ℚ) :
    ∀ (ord : List ℕ) (fs : List AssetFields) (s : ℚ × List (ℕ × ℚ) × List (ℕ × ℚ)),
    (∀ f ∈ fs, WFf f ∧ W0 f) → DustItems fs s.2.2 →
    DustItems (overIdx (dustStep m) ord (fs, s)).1 (overIdx (dustStep m) ord (fs, s)).2.2.2
  | [], _, _, _, hd => hd
  | i :: rest, fs, s, hwf, hd => by
    rw [overIdx]
    cases hf : fs.get? i with
    | none => exact dust_items m rest fs s hwf hd
    | some f =>
      have hfm := hwf f (mem_of_get?_eq_some fs i f hf)
      rcases dustStep_shape m i f s with ⟨heq, _⟩ | ⟨hne, hlt, h1, h2, hcase⟩
      · simp only [heq]
        rw [set_get?_eq_self fs i f hf]
        exact dust_items m rest fs s hwf hd
      · have hseta : ∀ g ∈ fs.set i (dustStep m i f s).1, WFf g ∧ W0 g := by
          intro g hg
          rcases List.mem_or_eq_of_mem_set hg with hg | rfl
          · exact hwf g hg
          · rw [h1]
            exact ⟨WFf_of_frameEq hfm.1 ⟨rfl, rfl, rfl, rfl, rfl, rfl⟩, fun _ => le_rfl⟩
        refine dust_items m rest _ _ hseta ?_
        have hget : (fs.set i (dustStep m i f s).1).get? i
            = some ({ f with target_value := f.current_value }) := by
          rw [← h1]
          exact get?_set_self fs i _ f hf
        have hold : ∀ p ∈ s.2.2, 0 < p.2 ∧
            ∀ g, (fs.set i (dustStep m i f s).1).get? p.1 = some g →
              g.expected_weight ≠ 0 ∧ g.target_value = g.current_value := by
          intro p hp
          refine ⟨(hd p hp).1, ?_⟩
          intro g hg
          by_cases hpi : p.1 = i
          · rw [hpi, hget] at hg
            cases Option.some.inj hg
            have := (hd p hp).2 f (hpi ▸ hf)
            exact ⟨this.1, rfl⟩
          · rw [get?_set_ne fs i p.1 _ (fun hh => hpi hh.symm)] at hg
            exact (hd p hp).2 g hg
        rcases hcase with ⟨hneg, hse, hbu⟩ | ⟨hpos, hse, hbu⟩
        · intro p hp
          rw [hbu] at hp
          exact hold p hp
        · intro p hp
          rw [hbu] at hp
          rcases List.mem_append.mp hp with hp | hp
          · exact hold p hp
          · rcases List.mem_singleton.mp hp with rfl
            refine ⟨hpos, ?_⟩
            intro g hg
            rw [hget] at hg
            cases Option.some.inj hg
            refine ⟨?_, rfl⟩
            intro hwz
            have := hfm.2 hwz
            linarith

theorem dust_nodup (m : ℚ) :
    ∀ (ord : List ℕ) (fs : List AssetFields) (s : ℚ × List (ℕ × ℚ) × List (ℕ × ℚ)),
    ord.Nodup → (s.2.2.map Prod.fst).Nodup → (∀ p ∈ s.2.2, p.1 ∉ ord) →
    ((overIdx (dustStep m) ord (fs, s)).2.2.2.map Prod.fst).Nodup
  | [], _, _, _, hnd2, _ => hnd2
  | i :: rest, fs, s, hnd, hnd2, hout => by
    have hndr : rest.Nodup := (List.nodup_cons.mp hnd).2
    have hir : i ∉ rest := (List.nodup_cons.mp hnd).1
    rw [overIdx]
    cases hf : fs.get? i with
    | none =>
      exact dust_nodup m rest fs s hndr hnd2
        (fun p hp hmem => hout p hp (List.mem_cons_of_mem i hmem))
    | some f =>
      rcases dustStep_shape m i f s with ⟨heq, _⟩ | ⟨hne, hlt, h1, h2, hcase⟩
      · simp only [heq]
        rw [set_get?_eq_self fs i f hf]
        exact dust_nodup m rest fs s hndr hnd2
          (fun p hp hmem => hout p hp (List.mem_cons_of_mem i hmem))
      · rcases hcase with ⟨hneg, hse, hbu⟩ | ⟨hpos, hse, hbu⟩
        · refine dust_nodup m rest _ _ hndr (by rw [hbu]; exact hnd2) ?_
          intro p hp hmem
          rw [hbu] at hp
          exact hout p hp (List.mem_cons_of_mem i hmem)
        · refine dust_nodup m rest _ _ hndr ?_ ?_
          · rw [hbu, List.map_append]
            rw [List.nodup_append]
            refine ⟨hnd2, List.nodup_singleton i, ?_⟩
            intro a ha hb
            rcases List.mem_singleton.mp hb with rfl
            obtain ⟨p, hp, hpa⟩ := List.mem_map.mp ha
            exact hout p hp (hpa ▸ List.mem_cons_self a rest)
          · intro p hp hmem
            rw [hbu] at hp
            rcases List.mem_append.mp hp with hp | hp
            · exact hout p hp (List.mem_cons_of_mem i hmem)
            · rcases List.mem_singleton.mp hp with rfl
              exact hir hmem

/-! ## Composition of the passes -/

theorem proportionalPass_mem (t : ℚ) (fs : List AssetFields) (hwf : ∀ f ∈ fs, WFf f) :
    ∀ g ∈ proportionalPass t fs, WFf g ∧ W0 g := by
  intro g hg
  obtain ⟨f, hf, rfl⟩ := List.mem_map.mp hg
  refine ⟨WFf_of_frameEq (hwf f hf) ⟨rfl, rfl, rfl, rfl, rfl, rfl⟩, ?_⟩
  intro hz
  show t * f.expected_weight ≤ f.current_value
  rw [hz, mul_zero]
  exact (hwf f hf).1

theorem proportionalPass_sum (t : ℚ) : ∀ fs : List AssetFields,
    ((proportionalPass t fs).map (fun f => f.target_value)).sum
      = t * (fs.map (fun f => f.expected_weight)).sum
  | [] => by simp [proportionalPass]
  | f :: rest => by
    have := proportionalPass_sum t rest
    simp only [proportionalPass, List.map_cons, List.sum_cons] at this ⊢
    rw [this]
    ring

theorem proportionalPass_length (t : ℚ) (fs : List AssetFields) :
    (proportionalPass t fs).length = fs.length := List.length_map fs _

theorem proportionalPass_rel (t : ℚ) (fs : List AssetFields) (i : ℕ) (f : AssetFields)
    (hf : fs.get? i = some f) :
    ∃ g, (proportionalPass t fs).get? i = some g ∧ frameEq f g := by
  refine ⟨{ f with target_value := t * f.expected_weight }, ?_, ⟨rfl, rfl, rfl, rfl, rfl, rfl⟩⟩
  rw [proportionalPass, List.get?_map, hf]
  rfl

theorem clampPasses_mem (ord : List ℕ) (t : ℚ) (fs : List AssetFields)
    (hwf : ∀ f ∈ fs, WFf f) :
    ∀ g ∈ (clampPasses ord t fs).1, WFf g ∧ W0 g := by
  have h1 := proportionalPass_mem t fs hwf
  have h2 := overIdx_mem (fun f => WFf f ∧ W0 f) (fun _ => True)
    (fun _ f s hf _ => ⟨maxClampStep_inv f s hf, trivial⟩) ord
    (proportionalPass t fs) 0 h1 trivial
  exact (overIdx_mem (fun f => WFf f ∧ W0 f) (fun _ => True)
    (fun _ f s hf _ => ⟨minClampStep_inv0 f s hf, trivial⟩) ord _ _ h2.1 trivial).1

theorem clampPasses_length (ord : List ℕ) (t : ℚ) (fs : List AssetFields) :
    (clampPasses ord t fs).1.length = fs.length := by
  rw [clampPasses, overIdx_length, overIdx_length, proportionalPass_length]

theorem clampPasses_bounds (ord : List ℕ) (t : ℚ) (fs : List AssetFields)
    (hnd : ord.Nodup) (hcov : ∀ i, i < fs.length → i ∈ ord)
    (hwf : ∀ f ∈ fs, WFf f) :
    ∀ g ∈ (clampPasses ord t fs).1, InBounds g := by
  have h1 := proportionalPass_mem t fs hwf
  have hcov1 : ∀ i, i < (proportionalPass t fs).length → i ∈ ord := by
    rw [proportionalPass_length]
    exact hcov
  -- after the max pass: WFf everywhere, upper bound everywhere
  have h2mem := overIdx_mem (fun f => WFf f ∧ W0 f) (fun _ => True)
    (fun _ f s hf _ => ⟨maxClampStep_inv f s hf, trivial⟩) ord
    (proportionalPass t fs) 0 h1 trivial
  have h2ub := overIdx_mem_post (fun g => ∀ mx ∈ g.max_value, g.target_value ≤ mx)
    (fun _ f s => maxClampStep_ub f s) ord hnd (proportionalPass t fs) 0 hcov1
  have hcov2 : ∀ i,
      i < (overIdx (fun _ f b => maxClampStep f b) ord
        (proportionalPass t fs, 0)).1.length → i ∈ ord := by
    rw [overIdx_length, proportionalPass_length]
    exact hcov
  -- after the min pass: upper bound survives, lower bound established
  have h3ub := overIdx_mem
    (fun f => WFf f ∧ ∀ mx ∈ f.max_value, f.target_value ≤ mx)
    (fun _ => True)
    (fun _ f s hf _ => ⟨minClampStep_inv_ub f s hf, trivial⟩) ord
    (overIdx (fun _ f b => maxClampStep f b) ord (proportionalPass t fs, 0)).1
    (overIdx (fun _ f b => maxClampStep f b) ord (proportionalPass t fs, 0)).2
    (fun f hf => ⟨(h2mem.1 f hf).1, h2ub f hf⟩) trivial
  have h3lb := overIdx_mem_post
    (fun g => g.min_value ≤ g.target_value)
    (fun _ f s => minClampStep_lb f s) ord hnd
    (overIdx (fun _ f b => maxClampStep f b) ord (proportionalPass t fs, 0)).1
    (overIdx (fun _ f b => maxClampStep f b) ord (proportionalPass t fs, 0)).2 hcov2
  intro g hg
  have hg2 : g ∈ (overIdx (fun _ f b => minClampStep f b) ord
      ((overIdx (fun _ f b => maxClampStep f b) ord (proportionalPass t fs, 0)).1,
       (overIdx (fun _ f b => maxClampStep f b) ord (proportionalPass t fs, 0)).2)).1 := hg
  exact ⟨h3lb g hg2, (h3ub.1 g hg2).2⟩

theorem clampPasses_sum (ord : List ℕ) (t : ℚ) (fs : List AssetFields) :
    ((clampPasses ord t fs).1.map (fun f => f.target_value)).sum + (clampPasses ord t fs).2
      = t * (fs.map (fun f => f.expected_weight)).sum := by
  have hmaxsum : ∀ (i : ℕ) (f : AssetFields) (s : ℚ),
      (maxClampStep f s).1.target_value + (maxClampStep f s).2 = f.target_value + s := by
    intro i f s
    rcases maxClampStep_shape f s with heq | ⟨mx, hmx, hlt, heq⟩ <;> rw [heq]
    show mx + (s + (f.target_value - mx)) = f.target_value + s
    ring
  have hminsum : ∀ (i : ℕ) (f : AssetFields) (s : ℚ),
      (minClampStep f s).1.target_value + (minClampStep f s).2 = f.target_value + s := by
    intro i f s
    rcases minClampStep_shape f s with ⟨heq, _⟩ | ⟨hlt, heq⟩ <;> rw [heq]
    show f.min_value + (s + (f.target_value - f.min_value)) = f.target_value + s
    ring
  have e2 := overIdx_target_sum (id) (fun i f s => hmaxsum i f s) ord
    (proportionalPass t fs) 0
  have e1 := overIdx_target_sum (id) (fun i f s => hminsum i f s) ord
    (overIdx (fun _ f b => maxClampStep f b) ord (proportionalPass t fs, 0)).1
    (overIdx (fun _ f b => maxClampStep f b) ord (proportionalPass t fs, 0)).2
  have e3 : ((clampPasses ord t fs).1.map (fun f => f.target_value)).sum
      + (clampPasses ord t fs).2
      = ((proportionalPass t fs).map (fun f => f.target_value)).sum + 0 :=
    e1.trans e2
  rw [e3, add_zero, proportionalPass_sum]

theorem clampPasses_rel (ord : List ℕ) (t : ℚ) (fs : List AssetFields) (i : ℕ)
    (f : AssetFields) (hf : fs.get? i = some f) :
    ∃ g, (clampPasses ord t fs).1.get? i = some g ∧ frameEq f g := by
  obtain ⟨g1, hg1, hrel1⟩ := proportionalPass_rel t fs i f hf
  obtain ⟨g2, hg2, hrel2⟩ := overIdx_get?_rel (frameEq)
    (fun _ f s => maxClampStep_frame f s) (fun a b c => frameEq_trans) ord
    (proportionalPass t fs) 0 i g1 hg1
  obtain ⟨g3, hg3, hrel3⟩ := overIdx_get?_rel (frameEq)
    (fun _ f s => minClampStep_frame f s) (fun a b c => frameEq_trans) ord _ _ i g2 hg2
  refine ⟨g3, hg3, ?_⟩
  have e2 : frameEq g1 g2 := by
    rcases hrel2 with rfl | h
    · exact frameEq_refl g1
    · exact h
  have e3 : frameEq g2 g3 := by
    rcases hrel3 with rfl | h
    · exact frameEq_refl g2
    · exact h
  exact frameEq_trans hrel1 (frameEq_trans e2 e3)

theorem dustPass_mem (ord : List ℕ) (m : ℚ) (st : List AssetFields × ℚ)
    (h : ∀ f ∈ st.1, WFf f ∧ W0 f ∧ InBounds f) :
    ∀ g ∈ (dustPass ord m st).1, WFf g ∧ W0 g ∧ InBounds g :=
  (overIdx_mem (fun f => WFf f ∧ W0 f ∧ InBounds f) (fun _ => True)
    (fun i f s hf _ => ⟨dustStep_inv m i f s hf, trivial⟩) ord st.1 (st.2, [], [])
    h trivial).1

theorem dustPass_length (ord : List ℕ) (m : ℚ) (st : List AssetFields × ℚ) :
    (dustPass ord m st).1.length = st.1.length := by
  rw [dustPass, overIdx_length]

theorem dustPass_items (ord : List ℕ) (m : ℚ) (st : List AssetFields × ℚ)
    (h : ∀ f ∈ st.1, WFf f ∧ W0 f) :
    DustItems (dustPass ord m st).1 (dustPass ord m st).2.2.2 :=
  dust_items m ord st.1 (st.2, [], []) h (fun p hp => absurd hp (List.not_mem_nil p))

theorem dustPass_nodup (ord : List ℕ) (m : ℚ) (st : List AssetFields × ℚ)
    (hnd : ord.Nodup) :
    ((dustPass ord m st).2.2.2.map Prod.fst).Nodup :=
  dust_nodup m ord st.1 (st.2, [], []) hnd List.nodup_nil
    (fun p hp => absurd hp (List.not_mem_nil p))

theorem dustPass_sum (ord : List ℕ) (m : ℚ) (st : List AssetFields × ℚ) :
    ((dustPass ord m st).1.map (fun f => f.target_value)).sum + (dustPass ord m st).2.1
      = (st.1.map (fun f => f.target_value)).sum + st.2 := by
  have hstep : ∀ (i : ℕ) (f : AssetFields) (s : ℚ × List (ℕ × ℚ) × List (ℕ × ℚ)),
      (dustStep m i f s).1.target_value + (dustStep m i f s).2.1
        = f.target_value + s.1 := by
    intro i f s
    rcases dustStep_shape m i f s with ⟨heq, _⟩ | ⟨_, _, h1, h2, _⟩
    · rw [heq]
    · rw [h1, h2]
      show f.current_value + (s.1 + (f.target_value - f.current_value)) = _
      ring
  exact overIdx_target_sum (fun s => s.1) hstep ord st.1 (st.2, [], [])

theorem dustPass_rel (ord : List ℕ) (m : ℚ) (st : List AssetFields × ℚ) (i : ℕ)
    (f : AssetFields) (hf : st.1.get? i = some f) :
    ∃ g, (dustPass ord m st).1.get? i = some g ∧ frameEq f g := by
  obtain ⟨g, hg, hrel⟩ := overIdx_get?_rel (frameEq)
    (fun j f0 s => dustStep_frame m j f0 s) (fun a b c => frameEq_trans) ord
    st.1 (st.2, [], []) i f hf
  refine ⟨g, hg, ?_⟩
  rcases hrel with rfl | h
  · exact frameEq_refl f
  · exact h

/-! The redistribution pass as a whole. -/

theorem redistributionPass_mem (m : ℚ) (hm : 0 ≤ m) (fs : List AssetFields) (bal : ℚ)
    (sells buys : List (ℕ × ℚ))
    (hfs : ∀ f ∈ fs, WFf f ∧ InBounds f) (hitems : DustItems fs buys) :
    ∀ g ∈ (redistributionPass m fs bal sells buys).1, WFf g ∧ InBounds g := by
  rw [redistributionPass]
  by_cases hz : bal = 0
  · rw [if_pos hz]
    exact hfs
  · rw [if_neg hz]
    by_cases hpos : 0 ≤ bal
    · rw [if_pos hpos]
      exact applyBuys_mem m hm (sortPairs buys) fs bal hfs
    · rw [if_neg hpos]
      refine applySells_mem m hm buys fs bal hfs ?_
      intro p hp g hg
      exact ((hitems p hp).2 g hg).1

theorem redistributionPass_length (m : ℚ) (fs : List AssetFields) (bal : ℚ)
    (sells buys : List (ℕ × ℚ)) :
    (redistributionPass m fs bal sells buys).1.length = fs.length := by
  rw [redistributionPass]
  by_cases hz : bal = 0
  · rw [if_pos hz]
  · rw [if_neg hz]
    by_cases hpos : 0 ≤ bal
    · rw [if_pos hpos, applyBuys_length]
    · rw [if_neg hpos, applySells_length]

theorem redistributionPass_sum (m : ℚ) (fs : List AssetFields) (bal : ℚ)
    (sells buys : List (ℕ × ℚ))
    (hitems : DustItems fs buys) (hnd : (buys.map Prod.fst).Nodup) :
    ((redistributionPass m fs bal sells buys).1.map (fun f => f.target_value)).sum
        + (redistributionPass m fs bal sells buys).2
      = (fs.map (fun f => f.target_value)).sum + bal := by
  rw [redistributionPass]
  by_cases hz : bal = 0
  · rw [if_pos hz]
  · rw [if_neg hz]
    by_cases hpos : 0 ≤ bal
    · rw [if_pos hpos]
      refine applyBuys_sum m (sortPairs buys) fs bal ?_ ?_
      · exact ((sortPairs_perm buys).map Prod.fst).nodup_iff.mpr hnd
      · intro p hp g hg
        exact ((hitems p ((sortPairs_perm buys).mem_iff.mp hp)).2 g hg).2
    · rw [if_neg hpos]
      refine applySells_sum m buys fs bal hnd ?_
      intro p hp g hg
      exact (hitems p hp).2 g hg

theorem redistributionPass_rel (m : ℚ) (fs : List AssetFields) (bal : ℚ)
    (sells buys : List (ℕ × ℚ)) (i : ℕ) (f : AssetFields) (hf : fs.get? i = some f) :
    ∃ g, (redistributionPass m fs bal sells buys).1.get? i = some g ∧ frameEq f g := by
  rw [redistributionPass]
  by_cases hz : bal = 0
  · rw [if_pos hz]
    exact ⟨f, hf, frameEq_refl f⟩
  · rw [if_neg hz]
    by_cases hpos : 0 ≤ bal
    · rw [if_pos hpos]
      exact applyBuys_rel m (sortPairs buys) fs bal i f hf
    · rw [if_neg hpos]
      exact applySells_rel m buys fs bal i f hf

/-! The whole level. -/

theorem calcLevel_eq (ord : List ℕ) (t m : ℚ) (fs : List AssetFields) :
    calcLevel ord t m fs
      = overIdx (fun _ f b => spilloverStep f b) ord
          (redistributionPass m (dustPass ord m (clampPasses ord t fs)).1
            (dustPass ord m (clampPasses ord t fs)).2.1
            (dustPass ord m (clampPasses ord t fs)).2.2.1
            (dustPass ord m (clampPasses ord t fs)).2.2.2) := rfl

theorem calcLevel_length (ord : List ℕ) (t m : ℚ) (fs : List AssetFields) :
    (calcLevel ord t m fs).1.length = fs.length := by
  rw [calcLevel_eq]
  have h1 : (redistributionPass m (dustPass ord m (clampPasses ord t fs)).1
      (dustPass ord m (clampPasses ord t fs)).2.1
      (dustPass ord m (clampPasses ord t fs)).2.2.1
      (dustPass ord m (clampPasses ord t fs)).2.2.2)
      = ((redistributionPass m (dustPass ord m (clampPasses ord t fs)).1
          (dustPass ord m (clampPasses ord t fs)).2.1
          (dustPass ord m (clampPasses ord t fs)).2.2.1
          (dustPass ord m (clampPasses ord t fs)).2.2.2).1,
         (redistributionPass m (dustPass ord m (clampPasses ord t fs)).1
          (dustPass ord m (clampPasses ord t fs)).2.1
          (dustPass ord m (clampPasses ord t fs)).2.2.1
          (dustPass ord m (clampPasses ord t fs)).2.2.2).2) := rfl
  rw [h1, overIdx_length, redistributionPass_length, dustPass_length, clampPasses_length]

theorem calcLevel_bounds (ord : List ℕ) (t m : ℚ) (fs : List AssetFields)
    (hnd : ord.Nodup) (hcov : ∀ i, i < fs.length → i ∈ ord)
    (hwf : ∀ f ∈ fs, WFf f) (hm : 0 ≤ m) :
    ∀ g ∈ (calcLevel ord t m fs).1, InBounds g := by
  have hclamp := clampPasses_mem ord t fs hwf
  have hclampb := clampPasses_bounds ord t fs hnd hcov hwf
  have hdust := dustPass_mem ord m (clampPasses ord t fs)
    (fun f hf => ⟨(hclamp f hf).1, (hclamp f hf).2, hclampb f hf⟩)
  have hitems := dustPass_items ord m (clampPasses ord t fs)
    (fun f hf => ⟨(hclamp f hf).1, (hclamp f hf).2⟩)
  have hred := redistributionPass_mem m hm (dustPass ord m (clampPasses ord t fs)).1
    (dustPass ord m (clampPasses ord t fs)).2.1
    (dustPass ord m (clampPasses ord t fs)).2.2.1
    (dustPass ord m (clampPasses ord t fs)).2.2.2
    (fun f hf => ⟨(hdust f hf).1, (hdust f hf).2.2⟩) hitems
  have hfin := overIdx_mem (fun f => WFf f ∧ InBounds f) (fun _ => True)
    (fun _ f s hf _ => ⟨spilloverStep_inv f s hf, trivial⟩) ord
    (redistributionPass m (dustPass ord m (clampPasses ord t fs)).1
      (dustPass ord m (clampPasses ord t fs)).2.1
      (dustPass ord m (clampPasses ord t fs)).2.2.1
      (dustPass ord m (clampPasses ord t fs)).2.2.2).1
    (redistributionPass m (dustPass ord m (clampPasses ord t fs)).1
      (dustPass ord m (clampPasses ord t fs)).2.1
      (dustPass ord m (clampPasses ord t fs)).2.2.1
      (dustPass ord m (clampPasses ord t fs)).2.2.2).2
    hred trivial
  intro g hg
  exact (hfin.1 g hg).2

theorem calcLevel_sum (ord : List ℕ) (t m : ℚ) (fs : List AssetFields)
    (hnd : ord.Nodup) (hwf : ∀ f ∈ fs, WFf f) :
    ((calcLevel ord t m fs).1.map (fun f => f.target_value)).sum + (calcLevel ord t m fs).2
      = t * (fs.map (fun f => f.expected_weight)).sum := by
  have hclamp := clampPasses_mem ord t fs hwf
  have hitems := dustPass_items ord m (clampPasses ord t fs)
    (fun f hf => ⟨(hclamp f hf).1, (hclamp f hf).2⟩)
  have hnodup := dustPass_nodup ord m (clampPasses ord t fs) hnd
  have hspill : ∀ (i : ℕ) (f : AssetFields) (s : ℚ),
      (spilloverStep f s).1.target_value + (spilloverStep f s).2
        = f.target_value + s := by
    intro i f s
    rcases spilloverStep_shape f s with ⟨_, _, ⟨mx, _, heq⟩ | ⟨_, heq⟩⟩ | ⟨_, _, heq⟩ | heq <;>
      rw [heq] <;> show _ = _
    · show f.target_value + min (mx - f.target_value) s + (s - min (mx - f.target_value) s)
          = f.target_value + s
      ring
    · show f.target_value + s + 0 = f.target_value + s
      ring
    · show f.target_value - min (f.target_value - f.min_value) (-s)
          + (s + min (f.target_value - f.min_value) (-s)) = f.target_value + s
      ring
  have e4 := overIdx_target_sum (id) (fun i f s => hspill i f s) ord
    (redistributionPass m (dustPass ord m (clampPasses ord t fs)).1
      (dustPass ord m (clampPasses ord t fs)).2.1
      (dustPass ord m (clampPasses ord t fs)).2.2.1
      (dustPass ord m (clampPasses ord t fs)).2.2.2).1
    (redistributionPass m (dustPass ord m (clampPasses ord t fs)).1
      (dustPass ord m (clampPasses ord t fs)).2.1
      (dustPass ord m (clampPasses ord t fs)).2.2.1
      (dustPass ord m (clampPasses ord t fs)).2.2.2).2
  have e3 := redistributionPass_sum m (dustPass ord m (clampPasses ord t fs)).1
    (dustPass ord m (clampPasses ord t fs)).2.1
    (dustPass ord m (clampPasses ord t fs)).2.2.1
    (dustPass ord m (clampPasses ord t fs)).2.2.2 hitems hnodup
  have e2 := dustPass_sum ord m (clampPasses ord t fs)
  have e1 := clampPasses_sum ord t fs
  have egoal : ((calcLevel ord t m fs).1.map (fun f => f.target_value)).sum
      + (calcLevel ord t m fs).2
      = ((clampPasses ord t fs).1.map (fun f => f.target_value)).sum
        + (clampPasses ord t fs).2 :=
    (e4.trans e3).trans e2
  rw [egoal, e1]

theorem calcLevel_rel (ord : List ℕ) (t m : ℚ) (fs : List AssetFields) (i : ℕ)
    (f : AssetFields) (hf : fs.get? i = some f) :
    ∃ g, (calcLevel ord t m fs).1.get? i = some g ∧ frameEq f g := by
  obtain ⟨g1, hg1, hrel1⟩ := clampPasses_rel ord t fs i f hf
  obtain ⟨g2, hg2, hrel2⟩ := dustPass_rel ord m (clampPasses ord t fs) i g1 hg1
  obtain ⟨g3, hg3, hrel3⟩ := redistributionPass_rel m
    (dustPass ord m (clampPasses ord t fs)).1
    (dustPass ord m (clampPasses ord t fs)).2.1
    (dustPass ord m (clampPasses ord t fs)).2.2.1
    (dustPass ord m (clampPasses ord t fs)).2.2.2 i g2 hg2
  obtain ⟨g4, hg4, hrel4⟩ := overIdx_get?_rel (frameEq)
    (fun _ f0 s => spilloverStep_frame f0 s) (fun a b c => frameEq_trans) ord
    (redistributionPass m (dustPass ord m (clampPasses ord t fs)).1
      (dustPass ord m (clampPasses ord t fs)).2.1
      (dustPass ord m (clampPasses ord t fs)).2.2.1
      (dustPass ord m (clampPasses ord t fs)).2.2.2).1
    (redistributionPass m (dustPass ord m (clampPasses ord t fs)).1
      (dustPass ord m (clampPasses ord t fs)).2.1
      (dustPass ord m (clampPasses ord t fs)).2.2.1
      (dustPass ord m (clampPasses ord t fs)).2.2.2).2 i g3 hg3
  refine ⟨g4, hg4, ?_⟩
  have e4 : frameEq g3 g4 := by
    rcases hrel4 with rfl | h
    · exact frameEq_refl g3
    · exact h
  exact frameEq_trans hrel1 (frameEq_trans hrel2 (frameEq_trans hrel3 e4))

/-! ## The full recursive pass as a relation

`calculate_target_value` iterates its `HashSet` in an order the model cannot
fix, so the full recursive computation is captured as a relation: one level
with *some* valid iteration order, then the recursion of lines 224-231 into
every group child with its resolved target as the new budget.  The
executable `calculate_target_value` above realizes the canonical-order
instance. -/

mutual

inductive CalcTV : ℚ → ℚ → List AssetAllocation → List AssetAllocation → Prop where
  | mk : ∀ (target_total_value min_trade_volume : ℚ)
      (assets out : List AssetAllocation) (ord : List ℕ),
      ord.Perm (List.range assets.length) →
      CalcKids min_trade_volume
        (calcLevel ord target_total_value min_trade_volume
          (assets.map AssetAllocation.fields)).1 assets out →
      CalcTV target_total_value min_trade_volume assets out

inductive CalcKids : ℚ → List AssetFields → List AssetAllocation → List AssetAllocation → Prop where
  | nil : ∀ m, CalcKids m [] [] []
  | stock : ∀ m f fs g rest out,
      CalcKids m fs rest out →
      CalcKids m (f :: fs) (.stock g :: rest) (.stock f :: out)
  | group : ∀ m (f : AssetFields) fs g kids rest out kidsOut,
      CalcTV f.target_value m kids kidsOut →
      CalcKids m fs rest out →
      CalcKids m (f :: fs) (.group g kids :: rest) (.group f kidsOut :: out)

end

/-- Well-formedness of the current values (spec §3): leaves are nonnegative,
a group's current value is the sum of its children's. -/
inductive CurrentsWF : AssetAllocation → Prop where
  | stock : ∀ f, 0 ≤ f.current_value → CurrentsWF (.stock f)
  | group : ∀ f kids, f.current_value = sumCurrent kids →
      (∀ k ∈ kids, CurrentsWF k) → CurrentsWF (.group f kids)

/-- A property holding at every node of a tree. -/
inductive AllNodes (P : AssetAllocation → Prop) : AssetAllocation → Prop where
  | stock : ∀ f, P (.stock f) → AllNodes P (.stock f)
  | group : ∀ f kids, P (.group f kids) → (∀ k ∈ kids, AllNodes P k) →
      AllNodes P (.group f kids)

theorem kids_sums (kids : List AssetAllocation) (h : ∀ k ∈ kids, WFf k.fields) :
    0 ≤ sumCurrent kids ∧ sumMin kids ≤ sumCurrent kids ∧
    (∀ M, sumMax kids = some M → sumCurrent kids ≤ M) := by
  induction kids with
  | nil =>
    refine ⟨le_refl 0, le_refl 0, ?_⟩
    intro M hM
    rw [sumMax] at hM
    cases Option.some.inj hM
    exact le_refl 0
  | cons a rest ih =>
    obtain ⟨ha1, ha2, ha3⟩ := h a (List.mem_cons_self a rest)
    obtain ⟨hr1, hr2, hr3⟩ := ih (fun k hk => h k (List.mem_cons_of_mem a hk))
    have hc : sumCurrent (a :: rest) = a.fields.current_value + sumCurrent rest := by
      rw [sumCurrent, List.map_cons, List.sum_cons]
      rfl
    have hmn : sumMin (a :: rest) = a.fields.min_value + sumMin rest := by
      rw [sumMin, List.map_cons, List.sum_cons]
      rfl
    refine ⟨by rw [hc]; linarith, by rw [hc, hmn]; linarith, ?_⟩
    intro M hM
    rw [sumMax] at hM
    cases hax : a.fields.max_value with
    | none => rw [hax] at hM; simp at hM
    | some x =>
      rw [hax] at hM
      cases hrx : sumMax rest with
      | none => rw [hrx] at hM; simp at hM
      | some y =>
        rw [hrx] at hM
        cases Option.some.inj hM
        have h1 := ha3 x hax
        have h2 := hr3 y hrx
        rw [hc]
        linarith

/-- On a tree with well-formed current values, the restriction pass's min/max
values bracket each node's current value. -/
theorem wf_nodes : ∀ a, RestrictionsCorrect a → CurrentsWF a → WFf a.fields := by
  intro a
  induction a using AssetAllocation.indMem with
  | hstock f =>
    intro h1 h2
    cases h1 with
    | stock _ hok =>
      cases h2 with
      | stock _ hc =>
        obtain ⟨hmin, hmax⟩ := hok
        show WFf f
        refine ⟨hc, ?_, ?_⟩
        · rw [hmin]
          by_cases hrs : f.restrict_selling.getD false
          · rw [if_pos hrs]
          · rw [if_neg hrs]
            exact hc
        · intro mx hmx
          simp only [Option.mem_def] at hmx
          rw [hmax] at hmx
          by_cases hrb : f.restrict_buying.getD false
          · rw [if_pos hrb] at hmx
            cases Option.some.inj hmx
            exact le_refl _
          · rw [if_neg hrb] at hmx
            simp at hmx
  | hgroup f kids ih =>
    intro h1 h2
    cases h1 with
    | group _ _ hmin hmax hkids =>
      cases h2 with
      | group _ _ hcur hkids2 =>
        have hwfk : ∀ k ∈ kids, WFf k.fields :=
          fun k hk => ih k hk (hkids k hk) (hkids2 k hk)
        obtain ⟨hs1, hs2, hs3⟩ := kids_sums kids hwfk
        show WFf f
        refine ⟨?_, ?_, ?_⟩
        · show 0 ≤ f.current_value
          rw [hcur]
          exact hs1
        · show f.min_value ≤ f.current_value
          rw [hmin, hcur]
          exact hs2
        · intro mx hmx
          simp only [Option.mem_def] at hmx
          rw [hmax] at hmx
          show f.current_value ≤ mx
          rw [hcur]
          exact hs3 mx hmx

theorem forall₂_of_get? {α β : Type} (R : α → β → Prop) :
    ∀ (l1 : List α) (l2 : List β), l1.length = l2.length →
      (∀ i a b, l1.get? i = some a → l2.get? i = some b → R a b) →
      List.Forall₂ R l1 l2
  | [], [], _, _ => List.Forall₂.nil
  | a :: l1, b :: l2, hlen, h =>
    List.Forall₂.cons (h 0 a b rfl rfl)
      (forall₂_of_get? R l1 l2 (Nat.succ.inj hlen) (fun i x y hx hy => h (i + 1) x y hx hy))
  | [], _ :: _, hlen, _ => by simp at hlen
  | _ :: _, [], hlen, _ => by simp at hlen

/-- The restriction-respect part of the range claim, per node. -/
def RespectsRestrictions : AssetAllocation → Prop
  | .stock f => (f.restrict_selling.getD false → f.current_value ≤ f.target_value) ∧
      (f.restrict_buying.getD false → f.target_value ≤ f.current_value)
  | .group _ _ => True

/-- Full per-node conclusion of the range claim. -/
def BoundsOk (a : AssetAllocation) : Prop := InBounds a.fields ∧ RespectsRestrictions a

theorem calcKids_bounds (m : ℚ) (B : ℕ)
    (rec : ∀ kids, sizeOf kids < B → ∀ (t : ℚ) out2,
      (∀ a ∈ kids, RestrictionsCorrect a ∧ CurrentsWF a) →
      CalcTV t m kids out2 → ∀ x ∈ out2, AllNodes BoundsOk x) :
    ∀ (assets : List AssetAllocation) (fs : List AssetFields) (out : List AssetAllocation),
      sizeOf assets ≤ B →
      CalcKids m fs assets out →
      (∀ a ∈ assets, RestrictionsCorrect a ∧ CurrentsWF a) →
      (∀ f ∈ fs, InBounds f) →
      List.Forall₂ (fun (a : AssetAllocation) (f : AssetFields) => frameEq a.fields f)
        assets fs →
      ∀ x ∈ out, AllNodes BoundsOk x := by
  intro assets
  induction assets with
  | nil =>
    intro fs out _ hk _ _ _ x hx
    cases hk
    simp at hx
  | cons a rest ih =>
    intro fs out hsize hk hok hf hrel x hx
    have hsize2 : sizeOf rest ≤ B := by
      have : sizeOf rest < sizeOf (a :: rest) := by
        simp only [List.cons.sizeOf_spec]
        omega
      omega
    cases hk with
    | stock m f fs' g rest' out' hk' =>
      rcases List.forall₂_cons.mp hrel with ⟨hback, hrel'⟩
      have hback2 : frameEq g f := hback
      rcases List.mem_cons.mp hx with rfl | hx
      · refine AllNodes.stock f ⟨hf f (List.mem_cons_self _ _), ?_⟩
        have hcor := (hok _ (List.mem_cons_self _ _)).1
        cases hcor with
        | stock _ hok2 =>
          obtain ⟨hew, hcv, hmv, hxv, hrb, hrs⟩ := hback2
          obtain ⟨hmin, hmax⟩ := hok2
          have hb := hf f (List.mem_cons_self _ _)
          show (f.restrict_selling.getD false → f.current_value ≤ f.target_value) ∧
            (f.restrict_buying.getD false → f.target_value ≤ f.current_value)
          constructor
          · intro hrsf
            have : f.min_value = f.current_value := by
              rw [hmv, hcv, hmin, if_pos (hrs ▸ hrsf)]
            exact this ▸ hb.1
          · intro hrbf
            have : f.max_value = some f.current_value := by
              rw [hxv, hcv, hmax, if_pos (hrb ▸ hrbf)]
            exact hb.2 f.current_value (by rw [this]; rfl)
      · exact ih fs' out' hsize2 hk' (fun b hb => hok b (List.mem_cons_of_mem _ hb))
          (fun f2 hf2 => hf f2 (List.mem_cons_of_mem _ hf2)) hrel' x hx
    | group m f fs' g kids rest' out' kidsOut hkid hk' =>
      rcases List.forall₂_cons.mp hrel with ⟨hback, hrel'⟩
      rcases List.mem_cons.mp hx with rfl | hx
      · refine AllNodes.group f kidsOut ⟨hf f (List.mem_cons_self _ _), trivial⟩ ?_
        have hkidsize : sizeOf kids < B := by
          have h1 : sizeOf kids < sizeOf (AssetAllocation.group g kids) := by
            simp only [AssetAllocation.group.sizeOf_spec]
            omega
          have h2 : sizeOf (AssetAllocation.group g kids)
              ≤ sizeOf (AssetAllocation.group g kids :: rest) := by
            simp only [List.cons.sizeOf_spec]
            omega
          omega
        have hcor := hok _ (List.mem_cons_self _ _)
        have hkidsok : ∀ b ∈ kids, RestrictionsCorrect b ∧ CurrentsWF b := by
          intro b hb
          cases hcor.1 with
          | group _ _ _ _ hks =>
            cases hcor.2 with
            | group _ _ _ hcs => exact ⟨hks b hb, hcs b hb⟩
        exact fun k hk2 => rec kids hkidsize f.target_value kidsOut hkidsok hkid k hk2
      · exact ih fs' out' hsize2 hk' (fun b hb => hok b (List.mem_cons_of_mem _ hb))
          (fun f2 hf2 => hf f2 (List.mem_cons_of_mem _ hf2)) hrel' x hx

theorem calcTV_bounds (m : ℚ) (hm : 0 ≤ m) :
    ∀ (B : ℕ) (assets : List AssetAllocation), sizeOf assets ≤ B →
    ∀ (t : ℚ) (out : List AssetAllocation),
      (∀ a ∈ assets, RestrictionsCorrect a ∧ CurrentsWF a) →
      CalcTV t m assets out → ∀ x ∈ out, AllNodes BoundsOk x := by
  intro B
  induction B with
  | zero =>
    intro assets hsize
    exfalso
    have : 0 < sizeOf assets := by
      cases assets <;> simp
    omega
  | succ B ih =>
    intro assets hsize t out hok hcalc
    cases hcalc with
    | mk _ _ _ _ ord hperm hkids =>
      have hnd : ord.Nodup := hperm.nodup_iff.mpr (List.nodup_range _)
      have hcov : ∀ i, i < (assets.map AssetAllocation.fields).length → i ∈ ord := by
        intro i hi
        rw [List.length_map] at hi
        exact hperm.mem_iff.mpr (List.mem_range.mpr hi)
      have hwf : ∀ f ∈ assets.map AssetAllocation.fields, WFf f := by
        intro f hf
        obtain ⟨a, ha, rfl⟩ := List.mem_map.mp hf
        exact wf_nodes a (hok a ha).1 (hok a ha).2
      have hlb := calcLevel_bounds ord t m (assets.map AssetAllocation.fields)
        hnd hcov hwf hm
      have hlen : assets.length
          = (calcLevel ord t m (assets.map AssetAllocation.fields)).1.length := by
        rw [calcLevel_length, List.length_map]
      have hrel : List.Forall₂
          (fun (a : AssetAllocation) (f : AssetFields) => frameEq a.fields f) assets
          (calcLevel ord t m (assets.map AssetAllocation.fields)).1 := by
        refine forall₂_of_get? _ _ _ hlen ?_
        intro i a f ha hf
        have hmap : (assets.map AssetAllocation.fields).get? i = some a.fields := by
          rw [List.get?_map, ha]
          rfl
        obtain ⟨g, hg, hrelg⟩ := calcLevel_rel ord t m
          (assets.map AssetAllocation.fields) i a.fields hmap
        rw [hf] at hg
        cases Option.some.inj hg
        exact hrelg
      refine calcKids_bounds m (B + 1) ?_ assets _ out hsize hkids hok hlb hrel
      intro kids hks t2 out2 hok2 hcalc2
      exact ih kids (by omega) t2 out2 hok2 hcalc2

/-! ## Transfer of `CurrentsWF` across the restriction pass -/

theorem same_cv : ∀ a b, SameButRestrictions a b →
    b.fields.current_value = a.fields.current_value := by
  intro a b h
  cases a with
  | stock f =>
    cases b with
    | stock g => exact h.2.1
    | group g kids2 => exact h.elim
  | group f kids =>
    cases b with
    | stock g => exact h.elim
    | group g kids2 => exact h.1.2.1

theorem sameList_mem : ∀ (ks ks2 : List AssetAllocation),
    SameButRestrictionsList ks ks2 → ∀ b ∈ ks2, ∃ a ∈ ks, SameButRestrictions a b
  | [], [], _, b, hb => absurd hb (List.not_mem_nil b)
  | [], _ :: _, hs, _, _ => hs.elim
  | _ :: _, [], hs, _, _ => hs.elim
  | a :: rest, b :: rest2, hs, c, hc => by
    rcases List.mem_cons.mp hc with rfl | hc
    · exact ⟨a, List.mem_cons_self a rest, hs.1⟩
    · obtain ⟨a2, ha2, hrel⟩ := sameList_mem rest rest2 hs.2 c hc
      exact ⟨a2, List.mem_cons_of_mem a ha2, hrel⟩

theorem currentsWF_of_same : ∀ a, CurrentsWF a →
    ∀ b, SameButRestrictions a b → CurrentsWF b := by
  intro a
  induction a using AssetAllocation.indMem with
  | hstock f =>
    intro h b hs
    cases b with
    | stock g =>
      cases h with
      | stock _ hc =>
        exact CurrentsWF.stock g
          (by rw [(hs.2.1 : g.current_value = f.current_value)]; exact hc)
    | group g kids2 => exact hs.elim
  | hgroup f kids ih =>
    intro h b hs
    cases b with
    | stock g => exact hs.elim
    | group g kids2 =>
      obtain ⟨heq, hlist⟩ := hs
      cases h with
      | group _ _ hcur hk =>
        have haux : ∀ (ks ks2 : List AssetAllocation),
            SameButRestrictionsList ks ks2 →
            (∀ k ∈ ks, CurrentsWF k → ∀ b2, SameButRestrictions k b2 → CurrentsWF b2) →
            (∀ k ∈ ks, CurrentsWF k) →
            (∀ k2 ∈ ks2, CurrentsWF k2) ∧ sumCurrent ks2 = sumCurrent ks := by
          intro ks
          induction ks with
          | nil =>
            intro ks2 hsl _ _
            cases ks2 with
            | nil => exact ⟨fun k2 hk2 => absurd hk2 (List.not_mem_nil k2), rfl⟩
            | cons => exact hsl.elim
          | cons c rest ihl =>
            intro ks2 hsl hrec hokk
            cases ks2 with
            | nil => exact hsl.elim
            | cons c2 rest2 =>
              obtain ⟨hcc, hrest⟩ := hsl
              obtain ⟨h1, h2⟩ := ihl rest2 hrest
                (fun k hk => hrec k (List.mem_cons_of_mem c hk))
                (fun k hk => hokk k (List.mem_cons_of_mem c hk))
              refine ⟨?_, ?_⟩
              · intro k2 hk2
                rcases List.mem_cons.mp hk2 with rfl | hk2
                · exact hrec c (List.mem_cons_self c rest)
                    (hokk c (List.mem_cons_self c rest)) k2 hcc
                · exact h1 k2 hk2
              · show sumCurrent (c2 :: rest2) = sumCurrent (c :: rest)
                have e1 : sumCurrent (c2 :: rest2)
                    = c2.fields.current_value + sumCurrent rest2 := by
                  rw [sumCurrent, List.map_cons, List.sum_cons]
                  rfl
                have e2 : sumCurrent (c :: rest)
                    = c.fields.current_value + sumCurrent rest := by
                  rw [sumCurrent, List.map_cons, List.sum_cons]
                  rfl
                rw [e1, e2, h2, same_cv c c2 hcc]
        obtain ⟨h1, h2⟩ := haux kids kids2 hlist ih hk
        exact CurrentsWF.group g kids2
          (by rw [(heq.2.1 : g.current_value = f.current_value), hcur, h2]) h1

/-- C2: after `calculate_restrictions` and any run of the target-calculation
pass (any hash-set iteration orders) on a portfolio whose current values are
well-formed (leaf values nonnegative, group values the sums of their
children's) and with a nonnegative minimum trade volume, every node of the
result satisfies `min_value ≤ target_value` and `target_value ≤ max_value`
when `max_value` is bounded (treated as `+∞` when `none`); in particular a
`restrict_selling` leaf never ends below its current value and a
`restrict_buying` leaf never ends above it. -/
theorem c2_range_and_restriction_respect
    (assets out : List AssetAllocation) (t m : ℚ)
    (hm : 0 ≤ m) (hcw : ∀ a ∈ assets, CurrentsWF a)
    (hcalc : CalcTV t m (calculate_restrictions assets).1 out) :
    ∀ x ∈ out, AllNodes BoundsOk x := by
  obtain ⟨hcor, hsame, _, _⟩ := restrListOk_of_mem assets (fun a _ => restrOneOk_all a)
  refine calcTV_bounds m hm (sizeOf (calculate_restrictions assets).1) _ le_rfl t out
    ?_ hcalc
  intro b hb
  refine ⟨hcor b hb, ?_⟩
  obtain ⟨a, ha, hrel⟩ := sameList_mem assets (calculate_restrictions assets).1 hsame b hb
  exact currentsWF_of_same a (hcw a ha) b hrel

/-! ## Concrete scenario fixtures -/

/-- Leaf fields in their pre-run state (target and status flags cleared,
bounds not yet computed). -/
def mkStockF (w cv : ℚ) (rb rs : Option Bool) : AssetFields :=
  { expected_weight := w, current_value := cv, target_value := 0, min_value := 0,
    max_value := none, restrict_buying := rb, restrict_selling := rs,
    buy_blocked := false, sell_blocked := false }

/-- A leaf holding in its pre-run state. -/
def mkStock (w cv : ℚ) (rb rs : Option Bool) : AssetAllocation :=
  .stock (mkStockF w cv rb rs)

/-- Scenario of spec §8.2: a buy-restricted leaf at 300 and a free leaf,
weights 50/50, total 1000 — here with the free leaf's current value already
at the 700 the first run produces. -/
def pRerun : Portfolio :=
  ⟨[mkStock (1/2) 300 (some true) none, mkStock (1/2) 700 none none], 1000, 1⟩

/-- The same portfolio before convergence: free leaf still at 0. -/
def pFirst : Portfolio :=
  ⟨[mkStock (1/2) 300 (some true) none, mkStock (1/2) 0 none none], 1000, 1⟩

theorem calcLevel_eval_rerun :
    calcLevel [0, 1] 1000 1
      [{ mkStockF (1/2) 300 (some true) none with max_value := some 300 },
       mkStockF (1/2) 700 none none]
      = ([{ mkStockF (1/2) 300 (some true) none with
              max_value := some 300, target_value := 300, buy_blocked := true },
          { mkStockF (1/2) 700 none none with target_value := 500 }], 200) := by
  rw [calcLevel_eq]
  have h1 : clampPasses [0, 1] 1000
      [{ mkStockF (1/2) 300 (some true) none with max_value := some 300 },
       mkStockF (1/2) 700 none none]
      = ([{ mkStockF (1/2) 300 (some true) none with
              max_value := some 300, target_value := 300, buy_blocked := true },
          { mkStockF (1/2) 700 none none with target_value := 500 }], 200) := by
    norm_num [clampPasses, proportionalPass, overIdx, maxClampStep, minClampStep, mkStockF]
  rw [h1]
  have h2 : dustPass [0, 1] 1
      ([{ mkStockF (1/2) 300 (some true) none with
            max_value := some 300, target_value := 300, buy_blocked := true },
        { mkStockF (1/2) 700 none none with target_value := 500 }], 200)
      = ([{ mkStockF (1/2) 300 (some true) none with
              max_value := some 300, target_value := 300, buy_blocked := true },
          { mkStockF (1/2) 700 none none with target_value := 500 }], (200, [], [])) := by
    norm_num [dustPass, overIdx, dustStep, mkStockF]
  rw [h2]
  have h3 : redistributionPass 1
      [{ mkStockF (1/2) 300 (some true) none with
           max_value := some 300, target_value := 300, buy_blocked := true },
       { mkStockF (1/2) 700 none none with target_value := 500 }] 200 [] []
      = ([{ mkStockF (1/2) 300 (some true) none with
              max_value := some 300, target_value := 300, buy_blocked := true },
          { mkStockF (1/2) 700 none none with target_value := 500 }], 200) := by
    norm_num [redistributionPass, applyBuys, sortPairs]
  rw [h3]
  norm_num [overIdx, spilloverStep, mkStockF]

theorem calcLevel_eval_first :
    calcLevel [0, 1] 1000 1
      [{ mkStockF (1/2) 300 (some true) none with max_value := some 300 },
       mkStockF (1/2) 0 none none]
      = ([{ mkStockF (1/2) 300 (some true) none with
              max_value := some 300, target_value := 300, buy_blocked := true },
          { mkStockF (1/2) 0 none none with target_value := 700 }], 0) := by
  rw [calcLevel_eq]
  have h1 : clampPasses [0, 1] 1000
      [{ mkStockF (1/2) 300 (some true) none with max_value := some 300 },
       mkStockF (1/2) 0 none none]
      = ([{ mkStockF (1/2) 300 (some true) none with
              max_value := some 300, target_value := 300, buy_blocked := true },
          { mkStockF (1/2) 0 none none with target_value := 500 }], 200) := by
    norm_num [clampPasses, proportionalPass, overIdx, maxClampStep, minClampStep, mkStockF]
  rw [h1]
  have h2 : dustPass [0, 1] 1
      ([{ mkStockF (1/2) 300 (some true) none with
            max_value := some 300, target_value := 300, buy_blocked := true },
        { mkStockF (1/2) 0 none none with target_value := 500 }], 200)
      = ([{ mkStockF (1/2) 300 (some true) none with
              max_value := some 300, target_value := 300, buy_blocked := true },
          { mkStockF (1/2) 0 none none with target_value := 500 }], (200, [], [])) := by
    norm_num [dustPass, overIdx, dustStep, mkStockF]
  rw [h2]
  have h3 : redistributionPass 1
      [{ mkStockF (1/2) 300 (some true) none with
           max_value := some 300, target_value := 300, buy_blocked := true },
       { mkStockF (1/2) 0 none none with target_value := 500 }] 200 [] []
      = ([{ mkStockF (1/2) 300 (some true) none with
              max_value := some 300, target_value := 300, buy_blocked := true },
          { mkStockF (1/2) 0 none none with target_value := 500 }], 200) := by
    norm_num [redistributionPass, applyBuys, sortPairs]
  rw [h3]
  norm_num [overIdx, spilloverStep, mkStockF]

theorem restrictions_eval_rerun :
    (calculate_restrictions pRerun.assets).1
      = [.stock { mkStockF (1/2) 300 (some true) none with max_value := some 300 },
         .stock (mkStockF (1/2) 700 none none)] := by
  norm_num [pRerun, calculate_restrictions, restrictOne, mkStock, mkStockF]

theorem restrictions_eval_first :
    (calculate_restrictions pFirst.assets).1
      = [.stock { mkStockF (1/2) 300 (some true) none with max_value := some 300 },
         .stock (mkStockF (1/2) 0 none none)] := by
  norm_num [pFirst, calculate_restrictions, restrictOne, mkStock, mkStockF]

theorem rebalance_eval_rerun :
    (rebalance_portfolio pRerun).assets
      = [.stock { mkStockF (1/2) 300 (some true) none with
            max_value := some 300, target_value := 300, buy_blocked := true },
         .stock { mkStockF (1/2) 700 none none with target_value := 500 }] := by
  show calculate_target_value pRerun.total_value pRerun.min_trade_volume
      (calculate_restrictions pRerun.assets).1 = _
  rw [restrictions_eval_rerun]
  show calculate_target_value 1000 1 _ = _
  rw [calculate_target_value]
  have hrange : List.range
      ([AssetAllocation.stock { mkStockF (1/2) 300 (some true) none with max_value := some 300 },
        AssetAllocation.stock (mkStockF (1/2) 700 none none)] : List AssetAllocation).length
      = [0, 1] := by
    norm_num [List.range_succ]
  rw [hrange]
  have hmap : ([AssetAllocation.stock { mkStockF (1/2) 300 (some true) none with
        max_value := some 300 },
      AssetAllocation.stock (mkStockF (1/2) 700 none none)] : List AssetAllocation).map
        AssetAllocation.fields
      = [{ mkStockF (1/2) 300 (some true) none with max_value := some 300 },
         mkStockF (1/2) 700 none none] := rfl
  rw [hmap, calcLevel_eval_rerun]
  simp only [rebuildChildren]

theorem rebalance_eval_first :
    (rebalance_portfolio pFirst).assets
      = [.stock { mkStockF (1/2) 300 (some true) none with
            max_value := some 300, target_value := 300, buy_blocked := true },
         .stock { mkStockF (1/2) 0 none none with target_value := 700 }] := by
  show calculate_target_value pFirst.total_value pFirst.min_trade_volume
      (calculate_restrictions pFirst.assets).1 = _
  rw [restrictions_eval_first]
  show calculate_target_value 1000 1 _ = _
  rw [calculate_target_value]
  have hrange : List.range
      ([AssetAllocation.stock { mkStockF (1/2) 300 (some true) none with max_value := some 300 },
        AssetAllocation.stock (mkStockF (1/2) 0 none none)] : List AssetAllocation).length
      = [0, 1] := by
    norm_num [List.range_succ]
  rw [hrange]
  have hmap : ([AssetAllocation.stock { mkStockF (1/2) 300 (some true) none with
        max_value := some 300 },
      AssetAllocation.stock (mkStockF (1/2) 0 none none)] : List AssetAllocation).map
        AssetAllocation.fields
      = [{ mkStockF (1/2) 300 (some true) none with max_value := some 300 },
         mkStockF (1/2) 0 none none] := rfl
  rw [hmap, calcLevel_eval_first]
  simp only [rebuildChildren]

/-- C1 counterexample: on the converged-then-perturbed 50/50 portfolio with a
buy-restricted leaf, the run ends with child targets summing to `800` against
a total of `1000`: a nonzero residual remained after all passes, and
`rebalance_portfolio` — whose only result is the mutated tree — reported
nothing: the residual was logged (line 222) and dropped, and the disabled
`if false` block (lines 22-27) would have turned unresolved debt into a
panic rather than a typed value.  The claimed conservation-or-typed-report
behaviour does not hold. -/
theorem c1_counterexample :
    ((rebalance_portfolio pRerun).assets.map (fun a => a.fields.target_value)).sum = 800
    ∧ pRerun.total_value = 1000 ∧ ((800 : ℚ) ≠ 1000) := by
  refine ⟨?_, rfl, by norm_num⟩
  rw [rebalance_eval_rerun]
  norm_num [AssetAllocation.fields, mkStockF]

/-- C1 (amended): at each level the children's targets sum to
`target_total_value * (sum of weights)` minus a residual; the residual is the
balance that `calculate_target_value` computes internally, logs and then
drops — it is never returned to the caller (the function's result is just the
mutated sibling list), and it can be nonzero. -/
theorem c1_level_conservation_with_dropped_residual (ord : List ℕ) (t m : ℚ)
    (fs : List AssetFields) (hnd : ord.Nodup) (hwf : ∀ f ∈ fs, WFf f) :
    ((calcLevel ord t m fs).1.map (fun f => f.target_value)).sum
      = t * (fs.map (fun f => f.expected_weight)).sum - (calcLevel ord t m fs).2 := by
  have := calcLevel_sum ord t m fs hnd hwf
  linarith

/-- Witness for the amended C1 at the concrete rerun scenario (residual 200). -/
theorem c1_amended_witness :
    ((calcLevel [0, 1] 1000 1
        [{ mkStockF (1/2) 300 (some true) none with max_value := some 300 },
         mkStockF (1/2) 700 none none]).1.map (fun f => f.target_value)).sum
      = 1000 * (([{ mkStockF (1/2) 300 (some true) none with max_value := some 300 },
          mkStockF (1/2) 700 none none] : List AssetFields).map
            (fun f => f.expected_weight)).sum
        - (calcLevel [0, 1] 1000 1
            [{ mkStockF (1/2) 300 (some true) none with max_value := some 300 },
             mkStockF (1/2) 700 none none]).2 := by
  refine c1_level_conservation_with_dropped_residual [0, 1] 1000 1 _ (by decide) ?_
  intro f hf
  rcases List.mem_cons.mp hf with rfl | hf
  · refine ⟨by norm_num [mkStockF], by norm_num [mkStockF], ?_⟩
    intro mx hmx
    have : (some (300 : ℚ)) = some mx := hmx
    cases Option.some.inj this
    norm_num [mkStockF]
  · rcases List.mem_singleton.mp hf with rfl
    refine ⟨by norm_num [mkStockF], by norm_num [mkStockF], ?_⟩
    intro mx hmx
    have : (none : Option ℚ) = some mx := hmx
    simp at this

/-! ## C7: idempotence -/

/-- C7 counterexample: run the engine on the §8.2 portfolio (free leaf at 0),
obtaining targets `[300, 700]`; set every leaf's current value to those
targets (`pRerun`) and run again with the same weights, restrictions and
total.  The second run yields targets `[300, 500]`:
the free leaf ends with `target_value = 500 ≠ 700 = current_value`, so a
converged portfolio is *not* a fixed point of the allocator (the spillover
pass only feeds children whose pending difference has the balance's sign, so
the 200 freed by the buy-restricted leaf is re-dropped). -/
theorem c7_counterexample :
    ((rebalance_portfolio pFirst).assets.map (fun a => a.fields.target_value)) = [300, 700]
    ∧ (pRerun.assets.map (fun a => a.fields.current_value)) = [300, 700]
    ∧ (pRerun.assets.map (fun a => a.fields.expected_weight))
      = (pFirst.assets.map (fun a => a.fields.expected_weight))
    ∧ pRerun.total_value = pFirst.total_value
    ∧ ((rebalance_portfolio pRerun).assets.map (fun a => a.fields.target_value)) = [300, 500]
    ∧ ((500 : ℚ) ≠ 700) := by
  refine ⟨?_, ?_, rfl, rfl, ?_, by norm_num⟩
  · rw [rebalance_eval_first]
    norm_num [AssetAllocation.fields, mkStockF]
  · norm_num [pRerun, mkStock, mkStockF, AssetAllocation.fields]
  · rw [rebalance_eval_rerun]
    norm_num [AssetAllocation.fields, mkStockF]

/-- A portfolio in which every node already holds exactly its proportional
share of the budget, with well-formed bounds. -/
inductive Proportional : ℚ → AssetAllocation → Prop where
  | stock : ∀ (t : ℚ) (f : AssetFields), f.current_value = t * f.expected_weight →
      WFf f → Proportional t (.stock f)
  | group : ∀ (t : ℚ) (f : AssetFields) kids, f.current_value = t * f.expected_weight →
      WFf f → (∀ k ∈ kids, Proportional f.current_value k) →
      Proportional t (.group f kids)

/-- A fold whose step leaves every present element (and the state) unchanged
is the identity. -/
theorem overIdx_id {σ : Type} (step : ℕ → AssetFields → σ → AssetFields × σ) :
    ∀ (ord : List ℕ) (fs : List AssetFields) (s : σ),
    (∀ i f, fs.get? i = some f → step i f s = (f, s)) →
    overIdx step ord (fs, s) = (fs, s)
  | [], _, _, _ => rfl
  | i :: rest, fs, s, h => by
    rw [overIdx]
    cases hf : fs.get? i with
    | none => exact overIdx_id step rest fs s h
    | some f =>
      simp only [h i f hf]
      rw [set_get?_eq_self fs i f hf]
      exact overIdx_id step rest fs s h

theorem calcLevel_fixed (ord : List ℕ) (t m : ℚ) (fs : List AssetFields)
    (h : ∀ f ∈ fs, f.current_value = t * f.expected_weight ∧ WFf f) :
    calcLevel ord t m fs
      = (fs.map (fun f => { f with target_value := f.current_value }), 0) := by
  rw [calcLevel_eq]
  have hprop : proportionalPass t fs
      = fs.map (fun f => { f with target_value := f.current_value }) := by
    rw [proportionalPass]
    refine List.map_congr_left ?_
    intro f hf
    rw [← (h f hf).1]
  have hmem : ∀ g ∈ fs.map (fun f => { f with target_value := f.current_value }),
      g.target_value = g.current_value ∧ WFf g := by
    intro g hg
    obtain ⟨f, hf, rfl⟩ := List.mem_map.mp hg
    exact ⟨rfl, WFf_of_frameEq (h f hf).2 ⟨rfl, rfl, rfl, rfl, rfl, rfl⟩⟩
  have hgetmem : ∀ (l : List AssetFields) (i : ℕ) (f : AssetFields),
      l.get? i = some f → f ∈ l := fun l i f hf => mem_of_get?_eq_some l i f hf
  have hclamp : clampPasses ord t fs
      = (fs.map (fun f => { f with target_value := f.current_value }), 0) := by
    rw [clampPasses, hprop]
    rw [overIdx_id _ ord _ 0 ?_, overIdx_id _ ord _ 0 ?_]
    · intro i f hf
      obtain ⟨htv, hw⟩ := hmem f (hgetmem _ i f hf)
      rw [minClampStep]
      rw [if_neg (by rw [htv]; exact not_lt.mpr hw.2.1)]
    · intro i f hf
      obtain ⟨htv, hw⟩ := hmem f (hgetmem _ i f hf)
      rw [maxClampStep]
      cases hmx : f.max_value with
      | none => rfl
      | some mx =>
        simp only []
        rw [if_neg (by rw [htv]; exact not_lt.mpr (hw.2.2 mx (by rw [hmx]; rfl)))]
  rw [hclamp]
  have hdust : dustPass ord m
      (fs.map (fun f => { f with target_value := f.current_value }), 0)
      = (fs.map (fun f => { f with target_value := f.current_value }), (0, [], [])) := by
    rw [dustPass]
    refine overIdx_id _ ord _ (0, [], []) ?_
    intro i f hf
    obtain ⟨htv, hw⟩ := hmem f (hgetmem _ i f hf)
    rw [dustStep]
    rw [if_neg (by rw [htv]; simp)]
  rw [hdust]
  have hred : redistributionPass m
      (fs.map (fun f => { f with target_value := f.current_value })) 0 [] []
      = (fs.map (fun f => { f with target_value := f.current_value }), 0) := by
    rw [redistributionPass, if_pos rfl]
  rw [hred]
  refine overIdx_id _ ord _ 0 ?_
  intro i f hf
  obtain ⟨htv, hw⟩ := hmem f (hgetmem _ i f hf)
  rcases spilloverStep_shape f 0 with
    ⟨hd, hb, ⟨mx, hmx, heq⟩ | ⟨hmx, heq⟩⟩ | ⟨hd, hb, heq⟩ | heq
  · rw [heq]
    have hv : min (mx - f.target_value) 0 = 0 := by
      refine min_eq_right ?_
      have := hw.2.2 mx (by rw [hmx]; rfl)
      rw [htv]
      linarith
    rw [hv]
    show ({ f with target_value := f.target_value + 0 }, (0 : ℚ) - 0) = (f, 0)
    rw [add_zero, sub_zero]
  · rw [heq]
    show ({ f with target_value := f.target_value + 0 }, (0 : ℚ)) = (f, 0)
    rw [add_zero]
  · exact absurd hb (lt_irrefl 0)
  · rw [heq]

theorem calcKids_fixed (m : ℚ) (B : ℕ)
    (rec : ∀ kids, sizeOf kids < B → ∀ (t : ℚ) out2,
      (∀ a ∈ kids, Proportional t a) → CalcTV t m kids out2 →
      ∀ x ∈ out2, AllNodes
        (fun a => a.fields.target_value = a.fields.current_value) x) :
    ∀ (assets : List AssetAllocation) (fs : List AssetFields) (out : List AssetAllocation),
      sizeOf assets ≤ B →
      CalcKids m fs assets out →
      (∀ a ∈ assets, ∃ t2, Proportional t2 a) →
      fs = assets.map (fun a => { a.fields with target_value := a.fields.current_value }) →
      ∀ x ∈ out, AllNodes (fun a => a.fields.target_value = a.fields.current_value) x := by
  intro assets
  induction assets with
  | nil =>
    intro fs out _ hk _ _ x hx
    cases hk
    simp at hx
  | cons a rest ih =>
    intro fs out hsize hk hprop hfs x hx
    have hsize2 : sizeOf rest ≤ B := by
      have : sizeOf rest < sizeOf (a :: rest) := by
        simp only [List.cons.sizeOf_spec]
        omega
      omega
    rw [List.map_cons] at hfs
    cases hk with
    | stock m f fs' g rest' out' hk' =>
      rcases List.cons.injEq .. ▸ hfs with ⟨hfe, hfse⟩
      rcases List.mem_cons.mp hx with rfl | hx
      · refine AllNodes.stock f ?_
        rw [hfe]
        rfl
      · exact ih fs' out' hsize2 hk'
          (fun b hb => hprop b (List.mem_cons_of_mem _ hb)) hfse x hx
    | group m f fs' g kids rest' out' kidsOut hkid hk' =>
      rcases List.cons.injEq .. ▸ hfs with ⟨hfe, hfse⟩
      rcases List.mem_cons.mp hx with rfl | hx
      · obtain ⟨t2, hp⟩ := hprop _ (List.mem_cons_self _ _)
        cases hp with
        | group _ _ _ hcv hwf hkidsp =>
          refine AllNodes.group f kidsOut (by rw [hfe]; rfl) ?_
          have hkidsize : sizeOf kids < B := by
            have h1 : sizeOf kids < sizeOf (AssetAllocation.group g kids) := by
              simp only [AssetAllocation.group.sizeOf_spec]
              omega
            have h2 : sizeOf (AssetAllocation.group g kids)
                ≤ sizeOf (AssetAllocation.group g kids :: rest) := by
              simp only [List.cons.sizeOf_spec]
              omega
            omega
          have hbud : f.target_value = g.current_value := by
            rw [hfe]
            rfl
          have hcur : f.target_value = (AssetAllocation.group g kids).fields.current_value :=
            hbud
          intro k hk2
          refine rec kids hkidsize f.target_value kidsOut ?_ (hkid) k hk2
          intro b hb
          rw [(hbud : f.target_value = g.current_value)]
          exact hkidsp b hb
      · exact ih fs' out' hsize2 hk'
          (fun b hb => hprop b (List.mem_cons_of_mem _ hb)) hfse x hx

theorem calcTV_fixed (m : ℚ) :
    ∀ (B : ℕ) (assets : List AssetAllocation), sizeOf assets ≤ B →
    ∀ (t : ℚ) (out : List AssetAllocation),
      (∀ a ∈ assets, Proportional t a) → CalcTV t m assets out →
      ∀ x ∈ out, AllNodes (fun a => a.fields.target_value = a.fields.current_value) x := by
  intro B
  induction B with
  | zero =>
    intro assets hsize
    exfalso
    have : 0 < sizeOf assets := by
      cases assets <;> simp
    omega
  | succ B ih =>
    intro assets hsize t out hprop hcalc
    cases hcalc with
    | mk _ _ _ _ ord hperm hkids =>
      have hfieldp : ∀ a ∈ assets, a.fields.current_value = t * a.fields.expected_weight
          ∧ WFf a.fields := by
        intro a ha
        cases hprop a ha with
        | stock _ _ hcv hwf => exact ⟨hcv, hwf⟩
        | group _ _ _ hcv hwf _ => exact ⟨hcv, hwf⟩
      have hmapp : ∀ f ∈ assets.map AssetAllocation.fields,
          f.current_value = t * f.expected_weight ∧ WFf f := by
        intro f hf
        obtain ⟨a, ha, rfl⟩ := List.mem_map.mp hf
        exact hfieldp a ha
      have hlev := calcLevel_fixed ord t m (assets.map AssetAllocation.fields) hmapp
      have hlev1 : (calcLevel ord t m (assets.map AssetAllocation.fields)).1
          = assets.map (fun a =>
              { a.fields with target_value := a.fields.current_value }) := by
        rw [hlev, List.map_map]
        rfl
      rw [hlev1] at hkids
      refine calcKids_fixed m (B + 1) ?_ assets _ out hsize hkids
        (fun a ha => ⟨t, hprop a ha⟩) rfl
      intro kids hks t2 out2 hp2 hc2
      exact ih kids (by omega) t2 out2 hp2 hc2

/-- C7 (amended): the allocator is a fixed point on exactly proportional
portfolios — if every node's current value equals its proportional share of
its parent's budget (with well-formed bounds), then any run of the
target-calculation pass yields `target_value = current_value` at every node.
In general, setting every current value to a previous run's targets is *not*
a fixed point (see the counterexample). -/
theorem c7_fixed_point_when_proportional (assets out : List AssetAllocation) (t m : ℚ)
    (hprop : ∀ a ∈ assets, Proportional t a) (hcalc : CalcTV t m assets out) :
    ∀ x ∈ out, AllNodes (fun a => a.fields.target_value = a.fields.current_value) x :=
  calcTV_fixed m (sizeOf assets) assets le_rfl t out hprop hcalc

/-- Witness for the amended C7 at a one-leaf portfolio. -/
theorem c7_amended_witness :
    ∃ out, CalcTV 60 1 [mkStock 1 60 none none] out ∧
      ∀ x ∈ out, AllNodes (fun a => a.fields.target_value = a.fields.current_value) x := by
  have hlev := calcLevel_fixed [0] 60 1 [mkStockF 1 60 none none] ?_
  · have hcalc : CalcTV 60 1 [mkStock 1 60 none none]
        [.stock { mkStockF 1 60 none none with target_value := 60 }] := by
      refine CalcTV.mk 60 1 _ _ [0] (by rw [(by decide : List.range
        ([mkStock 1 60 none none] : List AssetAllocation).length = [0])]) ?_
      have hmap : ([mkStock 1 60 none none] : List AssetAllocation).map
          AssetAllocation.fields = [mkStockF 1 60 none none] := rfl
      rw [hmap, hlev]
      have he : ([mkStockF 1 60 none none].map
          (fun f => { f with target_value := f.current_value }))
          = [{ mkStockF 1 60 none none with target_value := 60 }] := by
        norm_num [mkStockF]
      rw [he]
      exact CalcKids.stock 1 _ [] _ [] [] (CalcKids.nil 1)
    refine ⟨_, hcalc, ?_⟩
    refine c7_fixed_point_when_proportional _ _ 60 1 ?_ hcalc
    intro a ha
    rcases List.mem_singleton.mp ha with rfl
    refine Proportional.stock 60 _ (by norm_num [mkStockF]) ?_
    refine ⟨by norm_num [mkStockF], by norm_num [mkStockF], ?_⟩
    intro mx hmx
    have : (none : Option ℚ) = some mx := hmx
    simp at this
  · intro f hf
    rcases List.mem_singleton.mp hf with rfl
    refine ⟨by norm_num [mkStockF], ⟨by norm_num [mkStockF], by norm_num [mkStockF], ?_⟩⟩
    intro mx hmx
    have : (none : Option ℚ) = some mx := hmx
    simp at this

/-- Witness for C2 at a single unrestricted leaf (current value `50`,
budget `40`, minimum trade volume `1`). -/
theorem c2_witness :
    ∃ out, CalcTV 40 1 (calculate_restrictions [mkStock 1 50 none none]).1 out ∧
      ∀ x ∈ out, AllNodes BoundsOk x := by
  have hres : (calculate_restrictions [mkStock 1 50 none none]).1
      = [mkStock 1 50 none none] := by
    norm_num [calculate_restrictions, restrictOne, mkStock, mkStockF]
  have hlev : calcLevel [0] 40 1 [mkStockF 1 50 none none]
      = ([{ mkStockF 1 50 none none with target_value := 40 }], 0) := by
    rw [calcLevel_eq]
    have h1 : clampPasses [0] 40 [mkStockF 1 50 none none]
        = ([{ mkStockF 1 50 none none with target_value := 40 }], 0) := by
      norm_num [clampPasses, proportionalPass, overIdx, maxClampStep, minClampStep,
        mkStockF]
    rw [h1]
    have h2 : dustPass [0] 1 ([{ mkStockF 1 50 none none with target_value := 40 }], 0)
        = ([{ mkStockF 1 50 none none with target_value := 40 }], (0, [], [])) := by
      norm_num [dustPass, overIdx, dustStep, mkStockF]
    rw [h2]
    have h3 : redistributionPass 1 [{ mkStockF 1 50 none none with target_value := 40 }]
        0 [] []
        = ([{ mkStockF 1 50 none none with target_value := 40 }], 0) := by
      norm_num [redistributionPass]
    rw [h3]
    norm_num [overIdx, spilloverStep, mkStockF]
  have hcalc : CalcTV 40 1 (calculate_restrictions [mkStock 1 50 none none]).1
      [.stock { mkStockF 1 50 none none with target_value := 40 }] := by
    rw [hres]
    refine CalcTV.mk 40 1 _ _ [0] (by rw [(by decide : List.range
      ([mkStock 1 50 none none] : List AssetAllocation).length = [0])]) ?_
    have hmap : ([mkStock 1 50 none none] : List AssetAllocation).map
        AssetAllocation.fields = [mkStockF 1 50 none none] := rfl
    rw [hmap, hlev]
    exact CalcKids.stock 1 _ [] _ [] [] (CalcKids.nil 1)
  refine ⟨_, hcalc, ?_⟩
  refine c2_range_and_restriction_respect [mkStock 1 50 none none] _ 40 1
    (by norm_num) ?_ hcalc
  intro a ha
  rcases List.mem_singleton.mp ha with rfl
  exact CurrentsWF.stock (mkStockF 1 50 none none) (by norm_num [mkStockF])

/-! ## C9: the dust pass and blocked children -/

/-- A child as the clamp passes leave it when the proportional target `10`
falls below `min_value = 12`: clamped and flagged `sell_blocked`. -/
def dustF : AssetFields :=
  { mkStockF 1 15 none none with
    min_value := 12, target_value := 12, sell_blocked := true }

/-- C9 counterexample: the clamp passes (budget `10`, one leaf with current
value `15` and `min_value` `12`) leave the child `sell_blocked` at target
`12`; the dust pass with `min_trade_volume = 20` then snaps this already
blocked child back to its current value `15` — the source's dust loop runs
over the whole `correctable_holdings` set, which still contains the blocked
indices, so "children already flagged buy_blocked or sell_blocked are not
snapped" fails. -/
theorem c9_counterexample :
    clampPasses [0] 10 [{ mkStockF 1 15 none none with min_value := 12 }]
      = ([dustF], -2)
    ∧ dustF.sell_blocked = true
    ∧ dustF.target_value ≠ dustF.current_value
    ∧ (dustPass [0] 20 ([dustF], -2)).1 = [{ dustF with target_value := 15 }] := by
  refine ⟨?_, by norm_num [dustF], by norm_num [dustF, mkStockF], ?_⟩
  · norm_num [clampPasses, proportionalPass, overIdx, maxClampStep, minClampStep,
      dustF, mkStockF]
  · norm_num [dustPass, overIdx, dustStep, dustF, mkStockF]

/-- C9 (amended): the dust pass acts pointwise on every index of a
duplicate-free iteration order, and its action depends only on the child's
own difference — a child ends snapped to `current_value` exactly when
`target_value - current_value` is nonzero and smaller in magnitude than
`min_trade_volume`, *regardless* of its `buy_blocked`/`sell_blocked` flags
(the source iterates all of `correctable_holdings`, which still contains the
blocked children); otherwise it is unchanged.  Every eliminated difference
folds into the balance: the sum of targets plus balance is preserved. -/
theorem c9_dust_snaps_small_diffs_regardless_of_flags (ord : List ℕ) (m : ℚ)
    (st : List AssetFields × ℚ) (hnd : ord.Nodup)
    (i : ℕ) (f : AssetFields) (hi : i ∈ ord) (hf : st.1.get? i = some f) :
    (dustPass ord m st).1.get? i
      = some (if f.target_value - f.current_value ≠ 0
            ∧ |f.target_value - f.current_value| < m
          then { f with target_value := f.current_value } else f)
    ∧ ((dustPass ord m st).1.map (fun f => f.target_value)).sum
        + (dustPass ord m st).2.1
      = (st.1.map (fun f => f.target_value)).sum + st.2 := by
  refine ⟨?_, dustPass_sum ord m st⟩
  obtain ⟨s2, hout⟩ := overIdx_get?_visited (dustStep m) ord hnd st.1
    (st.2, [], []) i f hi hf
  have hd : (dustStep m i f s2).1
      = if f.target_value - f.current_value ≠ 0
          ∧ |f.target_value - f.current_value| < m
        then { f with target_value := f.current_value } else f := by
    rcases dustStep_shape m i f s2 with ⟨heq, hcond⟩ | ⟨h1, h2, h3, _, _⟩
    · rw [heq, if_neg]
      rintro ⟨hne, hlt⟩
      rcases hcond with hz | hge
      · exact hne hz
      · exact absurd hlt (not_lt.mpr hge)
    · rw [h3, if_pos ⟨h1, h2⟩]
  rw [dustPass, hout, hd]

/-- Witness for the amended C9 at the blocked child of the counterexample
portfolio: the sell-blocked leaf with difference `-3` and
`min_trade_volume = 20` is snapped to `15` and the balance absorbs the
difference. -/
theorem c9_amended_witness :
    (dustPass [0] 20 ([dustF], -2)).1.get? 0
      = some { dustF with target_value := 15 }
    ∧ ((dustPass [0] 20 ([dustF], -2)).1.map (fun f => f.target_value)).sum
        + (dustPass [0] 20 ([dustF], -2)).2.1
      = (([dustF] : List AssetFields).map (fun f => f.target_value)).sum + (-2) := by
  have h := c9_dust_snaps_small_diffs_regardless_of_flags [0] 20 ([dustF], -2)
    (by decide) 0 dustF (by decide) rfl
  refine ⟨?_, h.2⟩
  rw [h.1, if_pos (by norm_num [dustF, mkStockF])]
  rfl

/-! ## C3: the redistribution pass -/

theorem insPair_sorted (p : ℕ × ℚ) : ∀ l : List (ℕ × ℚ),
    l.Sorted (fun a b => a.2 ≤ b.2) → (insPair p l).Sorted (fun a b => a.2 ≤ b.2)
  | [], _ => List.sorted_singleton p
  | q :: rest, hs => by
    rw [insPair]
    by_cases hle : p.2 ≤ q.2
    · rw [if_pos hle]
      refine List.sorted_cons.mpr ⟨?_, hs⟩
      intro b hb
      rcases List.mem_cons.mp hb with rfl | hb2
      · exact hle
      · exact le_trans hle ((List.sorted_cons.mp hs).1 b hb2)
    · rw [if_neg hle]
      have hs2 := List.sorted_cons.mp hs
      refine List.sorted_cons.mpr ⟨?_, insPair_sorted p rest hs2.2⟩
      intro b hb
      have hb2 : b ∈ p :: rest := (insPair_perm p rest).mem_iff.mp hb
      rcases List.mem_cons.mp hb2 with rfl | hb3
      · exact le_of_lt (not_le.mp hle)
      · exact hs2.1 b hb3

theorem sortPairs_sorted : ∀ l : List (ℕ × ℚ),
    (sortPairs l).Sorted (fun a b => a.2 ≤ b.2)
  | [] => List.sorted_nil
  | p :: rest => insPair_sorted p (sortPairs rest) (sortPairs_sorted rest)

theorem insPair_filter (p : ℕ × ℚ) (x : ℚ) : ∀ s : List (ℕ × ℚ),
    (insPair p s).filter (fun q => decide (q.2 = x))
      = if p.2 = x then p :: s.filter (fun q => decide (q.2 = x))
        else s.filter (fun q => decide (q.2 = x))
  | [] => by
    rw [insPair]
    by_cases h : p.2 = x
    · simp [List.filter_cons, h]
    · simp [List.filter_cons, h]
  | q :: rest => by
    rw [insPair]
    by_cases hle : p.2 ≤ q.2
    · rw [if_pos hle]
      by_cases h : p.2 = x
      · simp [List.filter_cons, h]
      · simp [List.filter_cons, h]
    · rw [if_neg hle]
      have ihr := insPair_filter p x rest
      by_cases h : p.2 = x
      · have hq : ¬ q.2 = x := fun he => hle (le_of_eq (by rw [h, he]))
        simp [List.filter_cons, h, hq, ihr]
      · simp [List.filter_cons, h, ihr]

/-- Stability of `sortPairs`: within each class of equal amounts, the sorted
list keeps the input's relative order — filtering either list by any one
amount gives the same result. -/
theorem sortPairs_filter (x : ℚ) : ∀ l : List (ℕ × ℚ),
    (sortPairs l).filter (fun q => decide (q.2 = x))
      = l.filter (fun q => decide (q.2 = x))
  | [] => rfl
  | p :: rest => by
    rw [sortPairs, insPair_filter p x (sortPairs rest), sortPairs_filter x rest]
    by_cases h : p.2 = x
    · rw [if_pos h, List.filter_cons, if_pos (by simp [h])]
    · rw [if_neg h, List.filter_cons, if_neg (by simp [h])]

theorem applyBuys_get?_not_mem (m : ℚ) :
    ∀ (pairs : List (ℕ × ℚ)) (fs : List AssetFields) (bal : ℚ) (j : ℕ),
    j ∉ pairs.map Prod.fst →
    (applyBuys m pairs fs bal).1.get? j = fs.get? j
  | [], _, _, _, _ => rfl
  | (i, x) :: rest, fs, bal, j, hj => by
    have hij : i ≠ j := by rintro rfl; exact hj (by simp)
    have hjr : j ∉ rest.map Prod.fst := by intro h; exact hj (by simp [h])
    rw [applyBuys]
    by_cases hb : bal < m
    · rw [if_pos hb]
    · rw [if_neg hb]
      cases hg : fs.get? i with
      | none => exact applyBuys_get?_not_mem m rest fs bal j hjr
      | some f0 =>
        simp only []
        cases hmx : f0.max_value with
        | some mxv =>
          simp only []
          by_cases hgt : f0.current_value + m > mxv
          · rw [if_pos hgt]
            exact applyBuys_get?_not_mem m rest fs bal j hjr
          · rw [if_neg hgt]
            rw [applyBuys_get?_not_mem m rest _ _ j hjr, get?_set_ne fs i j _ hij]
        | none =>
          simp only []
          rw [applyBuys_get?_not_mem m rest _ _ j hjr, get?_set_ne fs i j _ hij]

theorem applySells_get?_not_mem (m : ℚ) :
    ∀ (pairs : List (ℕ × ℚ)) (fs : List AssetFields) (bal : ℚ) (j : ℕ),
    j ∉ pairs.map Prod.fst →
    (applySells m pairs fs bal).1.get? j = fs.get? j
  | [], _, _, _, _ => rfl
  | (i, x) :: rest, fs, bal, j, hj => by
    have hij : i ≠ j := by rintro rfl; exact hj (by simp)
    have hjr : j ∉ rest.map Prod.fst := by intro h; exact hj (by simp [h])
    rw [applySells]
    by_cases hb : bal > -m
    · rw [if_pos hb]
    · rw [if_neg hb]
      cases hg : fs.get? i with
      | none => exact applySells_get?_not_mem m rest fs bal j hjr
      | some f0 =>
        simp only []
        by_cases hlt : f0.current_value - m < f0.min_value
        · rw [if_pos hlt]
          by_cases hwz : f0.expected_weight = 0 ∧ f0.current_value - m ≤ 0
          · rw [if_pos hwz]
            rw [applySells_get?_not_mem m rest _ _ j hjr, get?_set_ne fs i j _ hij]
          · rw [if_neg hwz]
            exact applySells_get?_not_mem m rest fs bal j hjr
        · rw [if_neg hlt]
          rw [applySells_get?_not_mem m rest _ _ j hjr, get?_set_ne fs i j _ hij]

theorem applyBuys_forms (m : ℚ) :
    ∀ (pairs : List (ℕ × ℚ)) (fs : List AssetFields) (bal : ℚ) (j : ℕ) (f : AssetFields),
    fs.get? j = some f →
    ∃ g, (applyBuys m pairs fs bal).1.get? j = some g ∧
      (g = f ∨ (frameEq f g ∧ g.target_value = f.current_value + m ∧
        ∀ mx, f.max_value = some mx → g.target_value ≤ mx))
  | [], _, _, _, f, hf => ⟨f, hf, Or.inl rfl⟩
  | (i, x) :: rest, fs, bal, j, f, hf => by
    rw [applyBuys]
    by_cases hb : bal < m
    · rw [if_pos hb]
      exact ⟨f, hf, Or.inl rfl⟩
    · rw [if_neg hb]
      cases hg : fs.get? i with
      | none => exact applyBuys_forms m rest fs bal j f hf
      | some f0 =>
        simp only []
        cases hmx : f0.max_value with
        | some mxv =>
          simp only []
          by_cases hgt : f0.current_value + m > mxv
          · rw [if_pos hgt]
            exact applyBuys_forms m rest fs bal j f hf
          · rw [if_neg hgt]
            by_cases hij : i = j
            · subst hij
              have he : f0 = f := Option.some.inj (hg ▸ hf)
              subst he
              obtain ⟨g2, hg2, hrel⟩ := applyBuys_forms m rest _ (bal - m) i _
                (get?_set_self fs i _ f0 hg)
              refine ⟨g2, hg2, Or.inr ?_⟩
              have hfr : frameEq f0
                  ({ expected_weight := f0.expected_weight, current_value := f0.current_value,
                     target_value := f0.current_value + m, min_value := f0.min_value,
                     max_value := some mxv, restrict_buying := f0.restrict_buying,
                     restrict_selling := f0.restrict_selling, buy_blocked := f0.buy_blocked,
                     sell_blocked := f0.sell_blocked } : AssetFields) :=
                ⟨rfl, rfl, rfl, hmx.symm, rfl, rfl⟩
              rcases hrel with rfl | ⟨hfr2, htv2, hbd2⟩
              · refine ⟨hfr, rfl, ?_⟩
                intro mx hmx2
                have : mxv = mx := Option.some.inj (hmx ▸ hmx2)
                exact this ▸ le_of_not_lt hgt
              · refine ⟨frameEq_trans hfr hfr2, htv2, ?_⟩
                intro mx hmx2
                have : mxv = mx := Option.some.inj (hmx ▸ hmx2)
                exact this ▸ hbd2 mxv rfl
            · exact applyBuys_forms m rest _ (bal - m) j f
                (by rw [get?_set_ne fs i j _ hij]; exact hf)
        | none =>
          simp only []
          by_cases hij : i = j
          · subst hij
            have he : f0 = f := Option.some.inj (hg ▸ hf)
            subst he
            obtain ⟨g2, hg2, hrel⟩ := applyBuys_forms m rest _ (bal - m) i _
              (get?_set_self fs i _ f0 hg)
            refine ⟨g2, hg2, Or.inr ?_⟩
            have hfr : frameEq f0
                ({ expected_weight := f0.expected_weight, current_value := f0.current_value,
                   target_value := f0.current_value + m, min_value := f0.min_value,
                   max_value := none, restrict_buying := f0.restrict_buying,
                   restrict_selling := f0.restrict_selling, buy_blocked := f0.buy_blocked,
                   sell_blocked := f0.sell_blocked } : AssetFields) :=
              ⟨rfl, rfl, rfl, hmx.symm, rfl, rfl⟩
            rcases hrel with rfl | ⟨hfr2, htv2, hbd2⟩
            · refine ⟨hfr, rfl, ?_⟩
              intro mx hmx2
              rw [hmx] at hmx2
              cases hmx2
            · refine ⟨frameEq_trans hfr hfr2, htv2, ?_⟩
              intro mx hmx2
              rw [hmx] at hmx2
              cases hmx2
          · exact applyBuys_forms m rest _ (bal - m) j f
              (by rw [get?_set_ne fs i j _ hij]; exact hf)

theorem applySells_forms (m : ℚ) :
    ∀ (pairs : List (ℕ × ℚ)) (fs : List AssetFields) (bal : ℚ) (j : ℕ) (f : AssetFields),
    fs.get? j = some f →
    ∃ g, (applySells m pairs fs bal).1.get? j = some g ∧
      (g = f ∨ (frameEq f g ∧
        ((g.target_value = f.current_value - m ∧ f.min_value ≤ g.target_value) ∨
         (g.target_value = 0 ∧ f.expected_weight = 0))))
  | [], _, _, _, f, hf => ⟨f, hf, Or.inl rfl⟩
  | (i, x) :: rest, fs, bal, j, f, hf => by
    rw [applySells]
    by_cases hb : bal > -m
    · rw [if_pos hb]
      exact ⟨f, hf, Or.inl rfl⟩
    · rw [if_neg hb]
      cases hg : fs.get? i with
      | none => exact applySells_forms m rest fs bal j f hf
      | some f0 =>
        simp only []
        by_cases hlt : f0.current_value - m < f0.min_value
        · rw [if_pos hlt]
          by_cases hwz : f0.expected_weight = 0 ∧ f0.current_value - m ≤ 0
          · rw [if_pos hwz]
            by_cases hij : i = j
            · subst hij
              have he : f0 = f := Option.some.inj (hg ▸ hf)
              subst he
              obtain ⟨g2, hg2, hrel⟩ := applySells_forms m rest _ _ i _
                (get?_set_self fs i _ f0 hg)
              refine ⟨g2, hg2, Or.inr ?_⟩
              have hfr : frameEq f0
                  ({ f0 with target_value := 0 } : AssetFields) :=
                ⟨rfl, rfl, rfl, rfl, rfl, rfl⟩
              rcases hrel with rfl | ⟨hfr2, hforms⟩
              · exact ⟨hfr, Or.inr ⟨rfl, hwz.1⟩⟩
              · refine ⟨frameEq_trans hfr hfr2, ?_⟩
                rcases hforms with ⟨htv2, hbd2⟩ | ⟨htv2, hwz2⟩
                · exact Or.inl ⟨htv2, hbd2⟩
                · exact Or.inr ⟨htv2, hwz.1⟩
            · exact applySells_forms m rest _ _ j f
                (by rw [get?_set_ne fs i j _ hij]; exact hf)
          · rw [if_neg hwz]
            exact applySells_forms m rest fs bal j f hf
        · rw [if_neg hlt]
          by_cases hij : i = j
          · subst hij
            have he : f0 = f := Option.some.inj (hg ▸ hf)
            subst he
            obtain ⟨g2, hg2, hrel⟩ := applySells_forms m rest _ _ i _
              (get?_set_self fs i _ f0 hg)
            refine ⟨g2, hg2, Or.inr ?_⟩
            have hfr : frameEq f0
                ({ f0 with target_value := f0.current_value - m } : AssetFields) :=
              ⟨rfl, rfl, rfl, rfl, rfl, rfl⟩
            rcases hrel with rfl | ⟨hfr2, hforms⟩
            · exact ⟨hfr, Or.inl ⟨rfl, le_of_not_lt hlt⟩⟩
            · refine ⟨frameEq_trans hfr hfr2, ?_⟩
              rcases hforms with ⟨htv2, hbd2⟩ | ⟨htv2, hwz2⟩
              · exact Or.inl ⟨htv2, hbd2⟩
              · exact Or.inr ⟨htv2, hwz2⟩
          · exact applySells_forms m rest _ _ j f
              (by rw [get?_set_ne fs i j _ hij]; exact hf)

/-- The §8.2 first-run state as it enters the redistribution pass: the
buy-restricted leaf already clamped at `300` (the clamp released balance
`200`), its sibling still at the proportional target. -/
def c3A : AssetFields :=
  { mkStockF (1/2) 300 (some true) none with
    max_value := some 300, target_value := 300, buy_blocked := true }

/-- The free leaf at that point: target `500`, current `0` — eligible in the
original claim's sense: not `buy_blocked`/`sell_blocked`, not dust-snapped
(its pending difference `+500` is far above the trade volume, so the dust
pass recorded nothing), with unbounded `max_value` headroom. -/
def c3G : AssetFields := { mkStockF (1/2) 0 none none with target_value := 500 }

/-- C3 counterexample: a positive balance `200` (far above
`min_trade_volume = 1`) enters the redistribution pass with empty dust
vectors while an eligible child — unblocked, not dust-snapped, unbounded
headroom — is present; the original claim requires the pass to raise that
child's target until the balance drops below the trade volume, but the pass
returns the state untouched with the full `200` still pending: the code's
candidate set is the dust pass's `buys` vector, which holds only
dust-*snapped* children (lines 141-143), so the eligible unsnapped children
of the claim are never adjusted. -/
theorem c3_counterexample :
    redistributionPass 1 [c3A, c3G] 200 [] [] = ([c3A, c3G], 200)
    ∧ ((200 : ℚ) ≠ 0) ∧ ((1 : ℚ) ≤ 200)
    ∧ c3G.buy_blocked = false ∧ c3G.sell_blocked = false
    ∧ c3G.target_value ≠ c3G.current_value
    ∧ c3G.max_value = none := by
  refine ⟨?_, by norm_num, by norm_num, by norm_num [c3G, mkStockF],
    by norm_num [c3G, mkStockF], by norm_num [c3G, mkStockF],
    by norm_num [c3G, mkStockF]⟩
  norm_num [redistributionPass, applyBuys, sortPairs]

/-- C3 (amended): what the redistribution pass actually does.  Its candidate
set is the dust pass's `sells`/`buys` vectors — which hold exactly the
dust-*snapped* children — not the claim's eligible unsnapped children, and:
(i) the `sells` vector is never read — the result is the same for any two
`sells` arguments (the source sorts `sells` and then iterates `buys`,
line 175), so a negative balance is applied to the `buys` candidates
instead.  (ii) The positive branch walks the stably sorted `buys` vector:
ascending in recorded amount, entries of equal amount in their original
order (filtering by any one amount is preserved).  (iii) Children at indices
outside the `buys` vector are never modified, in either branch.  (iv)
Pointwise, every child is either untouched or (frame fields unchanged)
raised to exactly `current_value + min_trade_volume`, never above a bounded
`max_value` (only when the balance is positive), or lowered to exactly
`current_value - min_trade_volume`, never below `min_value` — or sent to
target `0` if its weight is zero (only when the balance is negative). -/
theorem c3_redistribution_shape (m : ℚ) (fs : List AssetFields) (bal : ℚ)
    (sells sells2 buys : List (ℕ × ℚ)) :
    redistributionPass m fs bal sells buys = redistributionPass m fs bal sells2 buys
    ∧ (sortPairs buys).Perm buys
    ∧ (sortPairs buys).Sorted (fun p q => p.2 ≤ q.2)
    ∧ (∀ x : ℚ, (sortPairs buys).filter (fun p => decide (p.2 = x))
        = buys.filter (fun p => decide (p.2 = x)))
    ∧ (∀ j, j ∉ buys.map Prod.fst →
        (redistributionPass m fs bal sells buys).1.get? j = fs.get? j)
    ∧ (∀ j f, fs.get? j = some f →
        ∃ g, (redistributionPass m fs bal sells buys).1.get? j = some g ∧
          (g = f ∨ (frameEq f g ∧
            ((0 < bal ∧ g.target_value = f.current_value + m ∧
              ∀ mx, f.max_value = some mx → g.target_value ≤ mx) ∨
             (bal < 0 ∧
              ((g.target_value = f.current_value - m ∧ f.min_value ≤ g.target_value) ∨
               (g.target_value = 0 ∧ f.expected_weight = 0))))))) := by
  refine ⟨rfl, sortPairs_perm buys, sortPairs_sorted buys,
    fun x => sortPairs_filter x buys, ?_, ?_⟩
  · intro j hj
    rw [redistributionPass]
    by_cases hz : bal = 0
    · rw [if_pos hz]
    · rw [if_neg hz]
      by_cases hpos : 0 ≤ bal
      · rw [if_pos hpos]
        refine applyBuys_get?_not_mem m (sortPairs buys) fs bal j ?_
        intro h
        exact hj (((sortPairs_perm buys).map Prod.fst).mem_iff.mp h)
      · rw [if_neg hpos]
        exact applySells_get?_not_mem m buys fs bal j hj
  · intro j f hf
    rw [redistributionPass]
    by_cases hz : bal = 0
    · rw [if_pos hz]
      exact ⟨f, hf, Or.inl rfl⟩
    · rw [if_neg hz]
      by_cases hpos : 0 ≤ bal
      · rw [if_pos hpos]
        obtain ⟨g, hg, hrel⟩ := applyBuys_forms m (sortPairs buys) fs bal j f hf
        refine ⟨g, hg, ?_⟩
        rcases hrel with rfl | ⟨hfr, htv, hbd⟩
        · exact Or.inl rfl
        · exact Or.inr ⟨hfr, Or.inl ⟨lt_of_le_of_ne hpos (Ne.symm hz), htv, hbd⟩⟩
      · rw [if_neg hpos]
        obtain ⟨g, hg, hrel⟩ := applySells_forms m buys fs bal j f hf
        refine ⟨g, hg, ?_⟩
        rcases hrel with rfl | ⟨hfr, hforms⟩
        · exact Or.inl rfl
        · exact Or.inr ⟨hfr, Or.inr ⟨lt_of_not_le hpos, hforms⟩⟩

/-! ## C4: iteration-order dependence -/

/-- Three equal-weight leaves at current value `100`; the third is
buy-restricted with `max_value = 100`. -/
def fsC4 : List AssetFields :=
  [mkStockF (1/3) 100 none none, mkStockF (1/3) 100 none none,
   { mkStockF (1/3) 100 (some true) none with max_value := some 100 }]

/-- C4 counterexample: the level computation is *not* order-independent.  On
three equal-weight leaves (total `600`, the third capped at `100`), the
max-clamp pass releases `100` of balance and the spillover pass dumps the
whole of it into the first unbounded child the hash-set iteration happens to
visit: the orders `[0, 1, 2]` and `[1, 0, 2]` — both permutations of the same
index set — yield targets `[300, 200, 100]` and `[200, 300, 100]`.  Since
`HashSet<usize>` iteration order is unspecified, `calculate_target_value` is
not deterministic in the claimed sense. -/
theorem c4_order_dependence :
    (calcLevel [0, 1, 2] 600 1 fsC4).1.map (fun f => f.target_value)
      = [300, 200, 100]
    ∧ (calcLevel [1, 0, 2] 600 1 fsC4).1.map (fun f => f.target_value)
      = [200, 300, 100]
    ∧ [0, 1, 2].Perm (List.range 3) ∧ [1, 0, 2].Perm (List.range 3)
    ∧ ([300, 200, 100] : List ℚ) ≠ [200, 300, 100] := by
  refine ⟨?_, ?_, by decide, by decide, by norm_num⟩
  · rw [calcLevel_eq]
    have h1 : clampPasses [0, 1, 2] 600 fsC4
        = ([{ mkStockF (1/3) 100 none none with target_value := 200 },
            { mkStockF (1/3) 100 none none with target_value := 200 },
            { mkStockF (1/3) 100 (some true) none with
                max_value := some 100, target_value := 100, buy_blocked := true }],
           100) := by
      norm_num [clampPasses, proportionalPass, overIdx, maxClampStep,
        minClampStep, fsC4, mkStockF]
    rw [h1]
    have h2 : dustPass [0, 1, 2] 1
        ([{ mkStockF (1/3) 100 none none with target_value := 200 },
          { mkStockF (1/3) 100 none none with target_value := 200 },
          { mkStockF (1/3) 100 (some true) none with
              max_value := some 100, target_value := 100, buy_blocked := true }], 100)
        = ([{ mkStockF (1/3) 100 none none with target_value := 200 },
            { mkStockF (1/3) 100 none none with target_value := 200 },
            { mkStockF (1/3) 100 (some true) none with
                max_value := some 100, target_value := 100, buy_blocked := true }],
           (100, [], [])) := by
      norm_num [dustPass, overIdx, dustStep, mkStockF]
    rw [h2]
    have h3 : redistributionPass 1
        [{ mkStockF (1/3) 100 none none with target_value := 200 },
         { mkStockF (1/3) 100 none none with target_value := 200 },
         { mkStockF (1/3) 100 (some true) none with
             max_value := some 100, target_value := 100, buy_blocked := true }]
        100 [] []
        = ([{ mkStockF (1/3) 100 none none with target_value := 200 },
            { mkStockF (1/3) 100 none none with target_value := 200 },
            { mkStockF (1/3) 100 (some true) none with
                max_value := some 100, target_value := 100, buy_blocked := true }],
           100) := by
      norm_num [redistributionPass, applyBuys, sortPairs]
    rw [h3]
    norm_num [overIdx, spilloverStep, mkStockF]
  · rw [calcLevel_eq]
    have h1 : clampPasses [1, 0, 2] 600 fsC4
        = ([{ mkStockF (1/3) 100 none none with target_value := 200 },
            { mkStockF (1/3) 100 none none with target_value := 200 },
            { mkStockF (1/3) 100 (some true) none with
                max_value := some 100, target_value := 100, buy_blocked := true }],
           100) := by
      norm_num [clampPasses, proportionalPass, overIdx, maxClampStep,
        minClampStep, fsC4, mkStockF]
    rw [h1]
    have h2 : dustPass [1, 0, 2] 1
        ([{ mkStockF (1/3) 100 none none with target_value := 200 },
          { mkStockF (1/3) 100 none none with target_value := 200 },
          { mkStockF (1/3) 100 (some true) none with
              max_value := some 100, target_value := 100, buy_blocked := true }], 100)
        = ([{ mkStockF (1/3) 100 none none with target_value := 200 },
            { mkStockF (1/3) 100 none none with target_value := 200 },
            { mkStockF (1/3) 100 (some true) none with
                max_value := some 100, target_value := 100, buy_blocked := true }],
           (100, [], [])) := by
      norm_num [dustPass, overIdx, dustStep, mkStockF]
    rw [h2]
    have h3 : redistributionPass 1
        [{ mkStockF (1/3) 100 none none with target_value := 200 },
         { mkStockF (1/3) 100 none none with target_value := 200 },
         { mkStockF (1/3) 100 (some true) none with
             max_value := some 100, target_value := 100, buy_blocked := true }]
        100 [] []
        = ([{ mkStockF (1/3) 100 none none with target_value := 200 },
            { mkStockF (1/3) 100 none none with target_value := 200 },
            { mkStockF (1/3) 100 (some true) none with
                max_value := some 100, target_value := 100, buy_blocked := true }],
           100) := by
      norm_num [redistributionPass, applyBuys, sortPairs]
    rw [h3]
    norm_num [overIdx, spilloverStep, mkStockF]

/-! ## `sell_overbought_assets` (rebalancing.rs lines 234-348)

The function runs a `loop` whose body recomputes every still-correctable
child's target against the budget left by the uncorrectable ones and
classifies children, recursing into groups.  The source has no termination
bound, so the model takes explicit fuel, consumed once per loop iteration
and passed on to the group recursion: `.out` means the computation was still
running when the fuel ran out, so `∀ fuel, … = .out` states nontermination.
The four `assert!` calls (lines 286, 296, 309, 322) are modelled as guards
whose failure is the `.assertFail` outcome.  Decimal `is_zero`/
`is_sign_negative` tests are exact `ℚ` comparisons, and Decimal division is
`ℚ` division (the source would panic on a zero `divider`; no claim concerns
that case).  The inner `for` loop iterates a clone of `correctable_holdings`
(line 271): the pass takes the iterated index list as an explicit argument,
and the executable wrapper uses the index lists in ascending order. -/

/-- The result of a (fuel-bounded) `sell_overbought_assets` call: the
source's `SellResult::Ok`/`SellResult::Debt` together with the mutated
assets, plus the two modelling outcomes. -/
inductive SellOutcome where
  | ok (assets : List AssetAllocation)
  | debt (assets : List AssetAllocation) (amount : ℚ)
  | assertFail
  | out

/-- The result of one pass over the correctable indices: continue the loop
with the updated state, return `Ok` now (the `break` at line 318, taken only
with the debt already at zero), an assertion failure, or fuel exhaustion
inside a recursive call. -/
inductive PassOut where
  | cont (assets : List AssetAllocation) (corr uncorr : List ℕ) (debt : ℚ)
      (changed : Bool)
  | okNow (assets : List AssetAllocation)
  | fail
  | fuel

mutual

/-- One pass of the loop body (lines 271-335) over the listed indices:
set each child's fair target `cttv * weight / divider`, recurse into groups
(a reported debt moves the child to `uncorr` and re-adds the debt to its
target), and classify leaves whose current value exceeds the new target:
sell-restricted or tiny-current leaves move to `uncorr` at their current
value; a sellable delta below `min_trade_volume` snaps the target back to
current (adding the delta to the debt) without any membership change unless
forced selling is active, in which case the target drops to
`current - min_trade_volume` and the recovered amount pays the debt down
(clamped at zero, breaking out once it reaches zero). -/
def sellPass (fuel : ℕ) (min_trade_volume cttv divider : ℚ) :
    List ℕ → List AssetAllocation → List ℕ → List ℕ → ℚ → Bool → Bool → PassOut
  | [], assets, corr, uncorr, debt, changed, _ => .cont assets corr uncorr debt changed
  | i :: rest, assets, corr, uncorr, debt, changed, force =>
    match assets.get? i with
    | none =>
      sellPass fuel min_trade_volume cttv divider rest assets corr uncorr debt changed force
    | some (.group g kids) =>
      let tv1 := cttv * g.expected_weight / divider
      match sell_overbought_loop fuel kids (List.range kids.length) [] false
          tv1 min_trade_volume with
      | .ok kids2 =>
        sellPass fuel min_trade_volume cttv divider rest
          (assets.set i (.group { g with target_value := tv1 } kids2)) corr uncorr debt
          (if tv1 ≠ g.target_value then true else changed) force
      | .debt kids2 d =>
        if 0 < d then
          sellPass fuel min_trade_volume cttv divider rest
            (assets.set i (.group { g with target_value := tv1 + d } kids2))
            (corr.erase i) (i :: uncorr) (debt + d)
            (if tv1 + d ≠ g.target_value then true else changed) force
        else .fail
      | .assertFail => .fail
      | .out => .fuel
    | some (.stock f) =>
      let tv1 := cttv * f.expected_weight / divider
      if f.current_value > tv1 then
        if f.restrict_selling.getD false ∨ f.current_value < min_trade_volume then
          if 0 < f.current_value - tv1 then
            sellPass fuel min_trade_volume cttv divider rest
              (assets.set i (.stock { f with target_value := f.current_value }))
              (corr.erase i) (i :: uncorr) (debt + (f.current_value - tv1))
              (if f.current_value ≠ f.target_value then true else changed) force
          else .fail
        else if f.current_value - tv1 < min_trade_volume then
          if force then
            if 0 ≤ tv1 - (f.current_value - min_trade_volume) then
              if (if debt - (tv1 - (f.current_value - min_trade_volume)) < 0 then 0
                  else debt - (tv1 - (f.current_value - min_trade_volume))) = 0 then
                .okNow (assets.set i
                  (.stock { f with target_value := f.current_value - min_trade_volume }))
              else
                sellPass fuel min_trade_volume cttv divider rest
                  (assets.set i
                    (.stock { f with target_value := f.current_value - min_trade_volume }))
                  corr uncorr
                  (if debt - (tv1 - (f.current_value - min_trade_volume)) < 0 then 0
                   else debt - (tv1 - (f.current_value - min_trade_volume)))
                  (if f.current_value - min_trade_volume ≠ f.target_value then true
                   else changed) force
            else .fail
          else
            if 0 < f.current_value - tv1 then
              sellPass fuel min_trade_volume cttv divider rest
                (assets.set i (.stock { f with target_value := f.current_value }))
                corr uncorr (debt + (f.current_value - tv1))
                (if f.current_value ≠ f.target_value then true else changed) force
            else .fail
        else
          sellPass fuel min_trade_volume cttv divider rest
            (assets.set i (.stock { f with target_value := tv1 })) corr uncorr debt
            (if tv1 ≠ f.target_value then true else changed) force
      else
        sellPass fuel min_trade_volume cttv divider rest
          (assets.set i (.stock { f with target_value := tv1 })) corr uncorr debt
          (if tv1 ≠ f.target_value then true else changed) force
termination_by ord _ _ _ _ _ _ => (fuel, 1, ord.length)

/-- The fixed-point loop (lines 248-348): sum the uncorrectable children's
weights and targets, derive the correctable budget (a negative budget starts
the pass with its absolute value as debt and budget zero), run one pass, and
dispatch on the pass result: zero debt returns `Ok`, an exhausted
correctable set returns `Debt`, and an unchanged pass turns forced selling
on for the next iteration. -/
def sell_overbought_loop :
    ℕ → List AssetAllocation → List ℕ → List ℕ → Bool → ℚ → ℚ → SellOutcome
  | 0, _, _, _, _, _, _ => .out
  | fuel + 1, assets, corr, uncorr, force, target_total_value, min_trade_volume =>
    let uw := (uncorr.map (fun i =>
      ((assets.get? i).map (fun a => a.fields.expected_weight)).getD 0)).sum
    let uv := (uncorr.map (fun i =>
      ((assets.get? i).map (fun a => a.fields.target_value)).getD 0)).sum
    let cttv0 := target_total_value - uv
    let cttv := if cttv0 < 0 then 0 else cttv0
    let debt0 := if cttv0 < 0 then -cttv0 else 0
    match sellPass fuel min_trade_volume cttv (1 - uw) corr assets corr uncorr
        debt0 false force with
    | .cont assets2 corr2 uncorr2 debt2 changed =>
      if debt2 = 0 then .ok assets2
      else if corr2 = [] then .debt assets2 debt2
      else sell_overbought_loop fuel assets2 corr2 uncorr2 (force || !changed)
        target_total_value min_trade_volume
    | .okNow assets2 => .ok assets2
    | .fail => .assertFail
    | .fuel => .out
termination_by fuel _ _ _ _ _ _ => (fuel, 0, 0)

end

/-- `sell_overbought_assets` (line 239): fresh correctable set of all
indices, empty uncorrectable set, forced selling off. -/
def sell_overbought_assets (fuel : ℕ) (assets : List AssetAllocation)
    (target_total_value min_trade_volume : ℚ) : SellOutcome :=
  sell_overbought_loop fuel assets (List.range assets.length) [] false
    target_total_value min_trade_volume

/-! ## C5: nontermination of the fixed-point loop -/

/-- A two-leaf portfolio that must shrink from `100` to `60` while the only
overbought leaf is sell-restricted. -/
def c5A : List AssetAllocation :=
  [mkStock (1/2) 100 none (some true), mkStock (1/2) 0 none none]

/-- The state after the first loop iteration: the restricted leaf pinned at
`100` and uncorrectable, the free leaf at its fair share `30`. -/
def c5Mid : List AssetAllocation :=
  [.stock { mkStockF (1/2) 100 none (some true) with target_value := 100 },
   .stock { mkStockF (1/2) 0 none none with target_value := 30 }]

/-- The fixed state: free leaf at target `0`, debt `40` recomputed every
iteration, nothing left to change. -/
def c5S : List AssetAllocation :=
  [.stock { mkStockF (1/2) 100 none (some true) with target_value := 100 },
   mkStock (1/2) 0 none none]

theorem c5_step0 (k : ℕ) :
    sell_overbought_loop (k + 1) c5A [0, 1] [] false 60 1
      = sell_overbought_loop k c5Mid [1] [0] false 60 1 := by
  rw [sell_overbought_loop]
  norm_num [sellPass, c5A, c5Mid, mkStock, mkStockF, Option.getD, List.erase]

theorem c5_step1 (k : ℕ) :
    sell_overbought_loop (k + 1) c5Mid [1] [0] false 60 1
      = sell_overbought_loop k c5S [1] [0] false 60 1 := by
  rw [sell_overbought_loop]
  norm_num [sellPass, AssetAllocation.fields, c5Mid, c5S, mkStock, mkStockF,
    Option.getD, List.erase]

theorem c5_step2 (k : ℕ) :
    sell_overbought_loop (k + 1) c5S [1] [0] false 60 1
      = sell_overbought_loop k c5S [1] [0] true 60 1 := by
  rw [sell_overbought_loop]
  norm_num [sellPass, AssetAllocation.fields, c5S, mkStock, mkStockF,
    Option.getD, List.erase]

theorem c5_fix : ∀ k : ℕ, sell_overbought_loop k c5S [1] [0] true 60 1 = .out := by
  intro k
  induction k with
  | zero => rw [sell_overbought_loop]
  | succ k2 ih =>
    rw [sell_overbought_loop]
    norm_num [sellPass, AssetAllocation.fields, c5S, mkStock, mkStockF,
      Option.getD, List.erase]
    exact ih

/-- C5: the fixed-point loop of `sell_overbought_assets` does *not* terminate
for every input.  On a two-leaf portfolio (weights `1/2`/`1/2`, current
values `100`/`0`, the first leaf sell-restricted) shrinking to a total of
`60` with `min_trade_volume = 1`, the loop reaches — after three
iterations — a state with debt `40`, the free leaf already at target `0` and
nothing left to sell: every further iteration recomputes the same targets,
changes nothing, keeps `force_selling` set, and loops again.  The correctable
set is *not* exhausted (the free leaf stays in it forever, since the
too-small-delta branch at line 303 never moves a leaf to the uncorrectable
set), so neither termination condition is ever reached: for every fuel bound
the computation is still running. -/
theorem c5_nontermination (fuel : ℕ) :
    sell_overbought_assets fuel c5A 60 1 = .out := by
  rw [sell_overbought_assets]
  rw [(by rfl : List.range c5A.length = [0, 1])]
  cases fuel with
  | zero => rw [sell_overbought_loop]
  | succ k =>
    rw [c5_step0]
    cases k with
    | zero => rw [sell_overbought_loop]
    | succ k2 =>
      rw [c5_step1]
      cases k2 with
      | zero => rw [sell_overbought_loop]
      | succ k3 =>
        rw [c5_step2, c5_fix]

/-! ## C6: when is an overbought leaf moved to the uncorrectable set? -/

/-- C6 counterexample: an overbought leaf (current `10`, recomputed target
`8`) whose sellable delta `2` is below `min_trade_volume = 3`, not
sell-restricted, forced selling not active.  The claim says it moves to the
uncorrectable set with its shortfall added to the debt; in the code (line
303) the shortfall is added to the debt and the target snapped to the
current value, but the leaf *stays* in the correctable set — `corr` is still
`[0]` and `uncorr` still `[]` after the pass. -/
theorem c6_counterexample :
    sellPass 0 3 8 1 [0] [mkStock 1 10 none none] [0] [] 0 false false
      = .cont [.stock { mkStockF 1 10 none none with target_value := 10 }] [0] [] 2 true
    ∧ 8 * (mkStockF 1 10 none none).expected_weight / 1
        < (mkStockF 1 10 none none).current_value
    ∧ (mkStockF 1 10 none none).current_value
        - 8 * (mkStockF 1 10 none none).expected_weight / 1 < 3
    ∧ (mkStockF 1 10 none none).restrict_selling.getD false = false := by
  refine ⟨?_, by norm_num [mkStockF], by norm_num [mkStockF],
    by norm_num [mkStockF, Option.getD]⟩
  rw [sellPass]
  norm_num [sellPass, mkStock, mkStockF, Option.getD]

/-- C6 (amended): processing an overbought leaf (current value above the
recomputed target `cttv * weight / divider`) with forced selling not active:
the leaf moves to the uncorrectable set — pinned to its current value, the
shortfall added to the debt — exactly when it is sell-restricted or its
*current value* (not the sellable delta, as the spec says) is below
`min_trade_volume`; when instead only the sellable delta is below
`min_trade_volume`, the target still snaps to the current value and the
shortfall is still added to the debt, but the leaf *remains* correctable;
otherwise the leaf simply sells down to the recomputed target. -/
theorem c6_stock_move_condition (fuel : ℕ) (m cttv divider : ℚ) (i : ℕ)
    (assets : List AssetAllocation) (corr uncorr : List ℕ) (debt : ℚ)
    (changed : Bool) (f : AssetFields)
    (hf : assets.get? i = some (.stock f))
    (hgt : cttv * f.expected_weight / divider < f.current_value) :
    sellPass fuel m cttv divider [i] assets corr uncorr debt changed false
      = (if f.restrict_selling.getD false = true ∨ f.current_value < m then
          .cont (assets.set i (.stock { f with target_value := f.current_value }))
            (corr.erase i) (i :: uncorr)
            (debt + (f.current_value - cttv * f.expected_weight / divider))
            (if f.current_value ≠ f.target_value then true else changed)
        else if f.current_value - cttv * f.expected_weight / divider < m then
          .cont (assets.set i (.stock { f with target_value := f.current_value }))
            corr uncorr
            (debt + (f.current_value - cttv * f.expected_weight / divider))
            (if f.current_value ≠ f.target_value then true else changed)
        else
          .cont (assets.set i
              (.stock { f with target_value := cttv * f.expected_weight / divider }))
            corr uncorr debt
            (if cttv * f.expected_weight / divider ≠ f.target_value then true
             else changed)) := by
  rw [sellPass, hf]
  simp only []
  rw [if_pos hgt]
  by_cases h1 : f.restrict_selling.getD false = true ∨ f.current_value < m
  · rw [if_pos h1, if_pos (sub_pos.mpr hgt), if_pos h1]
    rw [sellPass]
  · rw [if_neg h1, if_neg h1]
    by_cases h2 : f.current_value - cttv * f.expected_weight / divider < m
    · rw [if_pos h2, if_pos h2, if_neg Bool.false_ne_true,
        if_pos (sub_pos.mpr hgt)]
      rw [sellPass]
    · rw [if_neg h2, if_neg h2]
      rw [sellPass]

/-- Witness for the amended C6 at a sell-restricted overbought leaf: it is
moved to the uncorrectable set at its current value with the shortfall `2`
added to the debt. -/
theorem c6_amended_witness :
    sellPass 0 3 8 1 [0] [mkStock 1 10 none (some true)] [0] [] 0 false false
      = .cont [.stock { mkStockF 1 10 none (some true) with target_value := 10 }]
          [] [0] 2 true := by
  have h := c6_stock_move_condition 0 3 8 1 0 [mkStock 1 10 none (some true)] [0] [] 0
    false (mkStockF 1 10 none (some true)) rfl (by norm_num [mkStockF])
  rw [h, if_pos (by norm_num [mkStockF, Option.getD])]
  norm_num [mkStockF, List.erase]

/-! ## C10: assertion safety and strict positivity of reported debt

The pass lemma quantifies over an arbitrary iterated index list, so it covers
every hash-set iteration order; the loop lemma then proceeds by induction on
the fuel, with the pass lemma fed the loop safety at the next-smaller fuel as
an oracle for the group recursion. -/


theorem ite_neg_nonneg (x : ℚ) : 0 ≤ if x < 0 then -x else 0 := by
  by_cases h : x < 0
  · rw [if_pos h]
    linarith
  · rw [if_neg h]

theorem ite_clamp_nonneg (x : ℚ) : 0 ≤ if x < 0 then 0 else x := by
  by_cases h : x < 0
  · rw [if_pos h]
  · rw [if_neg h]
    linarith

theorem sellPass_safe (fuel : ℕ) (m cttv divider : ℚ)
    (oracle : ∀ (kids : List AssetAllocation) (c2 u2 : List ℕ) (f2 : Bool) (t2 m2 : ℚ),
      sell_overbought_loop fuel kids c2 u2 f2 t2 m2 ≠ .assertFail ∧
      ∀ k2 d, sell_overbought_loop fuel kids c2 u2 f2 t2 m2 = .debt k2 d → 0 < d) :
    ∀ (ord : List ℕ) (assets : List AssetAllocation) (corr uncorr : List ℕ)
      (debt : ℚ) (changed force : Bool), 0 ≤ debt →
      sellPass fuel m cttv divider ord assets corr uncorr debt changed force ≠ .fail ∧
      ∀ a c u d ch,
        sellPass fuel m cttv divider ord assets corr uncorr debt changed force
          = .cont a c u d ch → 0 ≤ d
  | [], assets, corr, uncorr, debt, changed, force, hdebt => by
    rw [sellPass]
    refine ⟨fun h => PassOut.noConfusion h, fun a c u d ch h => ?_⟩
    injection h with h1 h2 h3 h4 h5
    exact h4 ▸ hdebt
  | i :: rest, assets, corr, uncorr, debt, changed, force, hdebt => by
    rw [sellPass]
    cases hget : assets.get? i with
    | none =>
      exact sellPass_safe fuel m cttv divider oracle rest assets corr uncorr debt
        changed force hdebt
    | some a =>
      cases a with
      | group g kids =>
        simp only []
        cases hrec : sell_overbought_loop fuel kids (List.range kids.length) [] false
            (cttv * g.expected_weight / divider) m with
        | ok kids2 =>
          exact sellPass_safe fuel m cttv divider oracle rest _ _ _ _ _ _ hdebt
        | debt kids2 d =>
          simp only []
          have hd : 0 < d := (oracle kids _ _ _ _ _).2 kids2 d hrec
          rw [if_pos hd]
          refine sellPass_safe fuel m cttv divider oracle rest _ _ _ _ _ _ ?_
          linarith
        | assertFail => exact absurd hrec (oracle kids _ _ _ _ _).1
        | out =>
          exact ⟨fun h => PassOut.noConfusion h, fun a c u d ch h => PassOut.noConfusion h⟩
      | stock f =>
        simp only []
        by_cases hcv : f.current_value > cttv * f.expected_weight / divider
        · rw [if_pos hcv]
          by_cases h1 : f.restrict_selling.getD false = true ∨ f.current_value < m
          · rw [if_pos h1, if_pos (sub_pos.mpr hcv)]
            refine sellPass_safe fuel m cttv divider oracle rest _ _ _ _ _ _ ?_
            have := sub_pos.mpr hcv
            linarith
          · rw [if_neg h1]
            by_cases h2 : f.current_value - cttv * f.expected_weight / divider < m
            · rw [if_pos h2]
              cases force with
              | true =>
                rw [if_pos rfl, if_pos (by linarith :
                  (0:ℚ) ≤ cttv * f.expected_weight / divider - (f.current_value - m))]
                by_cases hz : (if debt - (cttv * f.expected_weight / divider
                    - (f.current_value - m)) < 0 then (0:ℚ)
                    else debt - (cttv * f.expected_weight / divider
                      - (f.current_value - m))) = 0
                · rw [if_pos hz]
                  exact ⟨fun h => PassOut.noConfusion h,
                    fun a c u d ch h => PassOut.noConfusion h⟩
                · rw [if_neg hz]
                  exact sellPass_safe fuel m cttv divider oracle rest _ _ _ _ _ _
                    (ite_clamp_nonneg _)
              | false =>
                rw [if_neg Bool.false_ne_true, if_pos (sub_pos.mpr hcv)]
                refine sellPass_safe fuel m cttv divider oracle rest _ _ _ _ _ _ ?_
                have := sub_pos.mpr hcv
                linarith
            · rw [if_neg h2]
              exact sellPass_safe fuel m cttv divider oracle rest _ _ _ _ _ _ hdebt
        · rw [if_neg hcv]
          exact sellPass_safe fuel m cttv divider oracle rest _ _ _ _ _ _ hdebt



theorem dispatchP (fuel : ℕ) (t m : ℚ) (r : PassOut) (force : Bool)
    (hr : r ≠ .fail ∧ ∀ a c u d ch, r = .cont a c u d ch → 0 ≤ d)
    (ih : ∀ (assets : List AssetAllocation) (corr uncorr : List ℕ) (force2 : Bool),
      sell_overbought_loop fuel assets corr uncorr force2 t m ≠ .assertFail ∧
      ∀ out d, sell_overbought_loop fuel assets corr uncorr force2 t m
        = .debt out d → 0 < d) :
    (match r with
     | .cont assets2 corr2 uncorr2 debt2 changed =>
       if debt2 = 0 then SellOutcome.ok assets2
       else if corr2 = [] then SellOutcome.debt assets2 debt2
       else sell_overbought_loop fuel assets2 corr2 uncorr2 (force || !changed) t m
     | .okNow assets2 => SellOutcome.ok assets2
     | .fail => SellOutcome.assertFail
     | .fuel => SellOutcome.out) ≠ .assertFail ∧
    ∀ out d, (match r with
     | .cont assets2 corr2 uncorr2 debt2 changed =>
       if debt2 = 0 then SellOutcome.ok assets2
       else if corr2 = [] then SellOutcome.debt assets2 debt2
       else sell_overbought_loop fuel assets2 corr2 uncorr2 (force || !changed) t m
     | .okNow assets2 => SellOutcome.ok assets2
     | .fail => SellOutcome.assertFail
     | .fuel => SellOutcome.out) = .debt out d → 0 < d := by
  cases r with
  | cont a2 c2 u2 d2 ch =>
    simp only []
    by_cases hz : d2 = 0
    · rw [if_pos hz]
      exact ⟨fun h => SellOutcome.noConfusion h, fun out d h => SellOutcome.noConfusion h⟩
    · rw [if_neg hz]
      by_cases hc : c2 = []
      · rw [if_pos hc]
        refine ⟨fun h => SellOutcome.noConfusion h, fun out d h => ?_⟩
        injection h with h1 h2
        have h0 : 0 ≤ d2 := hr.2 a2 c2 u2 d2 ch rfl
        rw [← h2]
        exact lt_of_le_of_ne h0 (Ne.symm hz)
      · rw [if_neg hc]
        exact ih a2 c2 u2 (force || !ch)
  | okNow a2 =>
    exact ⟨fun h => SellOutcome.noConfusion h, fun out d h => SellOutcome.noConfusion h⟩
  | fail => exact absurd rfl hr.1
  | fuel =>
    exact ⟨fun h => SellOutcome.noConfusion h, fun out d h => SellOutcome.noConfusion h⟩

theorem sell_loop_safe : ∀ (fuel : ℕ) (assets : List AssetAllocation)
    (corr uncorr : List ℕ) (force : Bool) (t m : ℚ),
    sell_overbought_loop fuel assets corr uncorr force t m ≠ .assertFail ∧
    ∀ out d, sell_overbought_loop fuel assets corr uncorr force t m
      = .debt out d → 0 < d := by
  intro fuel
  induction fuel with
  | zero =>
    intro assets corr uncorr force t m
    rw [sell_overbought_loop]
    exact ⟨fun h => SellOutcome.noConfusion h, fun out d h => SellOutcome.noConfusion h⟩
  | succ fuel ih =>
    intro assets corr uncorr force t m
    rw [sell_overbought_loop]
    refine dispatchP fuel t m _ force ?_ (fun a2 c2 u2 f2 => ih a2 c2 u2 f2 t m)
    exact sellPass_safe fuel m _ _ (fun kids c2 u2 f2 t2 m2 => ih kids c2 u2 f2 t2 m2)
      corr assets corr uncorr _ false force (ite_neg_nonneg _)

/-- C10: for every input (any fuel bound, assets, target and minimum trade
volume), `sell_overbought_assets` never fails an internal assertion: every
debt it accumulates is checked strictly positive at accumulation time, the
`extra_assets` recovered in forced-selling mode is nonnegative (both proved
from the branch guards, the recursive-debt case by induction on the fuel),
and whenever the call returns `SellResult::Debt(amount)` the amount is
strictly positive (the running debt is nonnegative throughout a pass, and
the `Debt` return is guarded by a nonzero test). -/
theorem c10_no_assert_failure_and_positive_debt (fuel : ℕ)
    (assets : List AssetAllocation) (t m : ℚ) :
    sell_overbought_assets fuel assets t m ≠ .assertFail ∧
    ∀ out d, sell_overbought_assets fuel assets t m = .debt out d → 0 < d := by
  rw [sell_overbought_assets]
  exact sell_loop_safe fuel assets (List.range assets.length) [] false t m


end Rebalancing
